import Mathlib

/-!
Verification of the B-tree implementation in `src/include/btree.h` and
`src/include/btree_node.h`.

The C++ code stores, in every node, a fixed-capacity key array of size
`2t-1` together with a live count `n`, and a fixed-capacity child-pointer
array of size `2t` whose unused slots are null.  The shallow embedding
below represents exactly the live data: `keys` is the list of the first
`n` key slots (so `keys.length` plays the role of the field `n`), and
`children` is the list of the non-null child pointers
`children[0] .. children[n]` (empty for a leaf, whose child slots are all
null).  All loops of the source that shift array slots become the
corresponding list operations (`List.insertIdx`, `List.set`,
`List.take`, `List.drop`), and the raw-pointer null checks of the source
become `Option` matches.
-/

namespace BTreeSpec

/-- A node of the B-tree (`class BTreeNode`, `btree_node.h`): minimum degree
`t`, leaf flag `is_leaf`, the live keys (the first `n` slots of the key
array, in order) and the live (non-null) children. -/
inductive BTreeNode : Type where
  | mk (t : Nat) (is_leaf : Bool) (keys : List Int) (children : List BTreeNode) : BTreeNode

/-- Field accessor for `BTreeNode::t`. -/
def BTreeNode.t : BTreeNode → Nat
  | .mk a _ _ _ => a

/-- Field accessor for `BTreeNode::is_leaf`. -/
def BTreeNode.is_leaf : BTreeNode → Bool
  | .mk _ b _ _ => b

/-- Field accessor for the live keys `keys[0] .. keys[n-1]`. -/
def BTreeNode.keys : BTreeNode → List Int
  | .mk _ _ ks _ => ks

/-- Field accessor for the live children `children[0] .. children[n]`. -/
def BTreeNode.children : BTreeNode → List BTreeNode
  | .mk _ _ _ cs => cs

/-- The key count `BTreeNode::n`: in the embedding it is the length of the
live key list. -/
def BTreeNode.n (nd : BTreeNode) : Nat := nd.keys.length

@[simp] theorem t_mk (a : Nat) (b : Bool) (ks : List Int) (cs : List BTreeNode) :
    (BTreeNode.mk a b ks cs).t = a := rfl

@[simp] theorem is_leaf_mk (a : Nat) (b : Bool) (ks : List Int) (cs : List BTreeNode) :
    (BTreeNode.mk a b ks cs).is_leaf = b := rfl

@[simp] theorem keys_mk (a : Nat) (b : Bool) (ks : List Int) (cs : List BTreeNode) :
    (BTreeNode.mk a b ks cs).keys = ks := rfl

@[simp] theorem children_mk (a : Nat) (b : Bool) (ks : List Int) (cs : List BTreeNode) :
    (BTreeNode.mk a b ks cs).children = cs := rfl

/-- The scan of `BTreeNode::search`: increment `i` from 0 while
`i < n && k > keys[i]`; the result is the length of the longest prefix of
the live keys that are `< k`. -/
def searchIdx (ks : List Int) (k : Int) : Nat :=
  (ks.takeWhile (fun x => decide (x < k))).length

/-- `BTreeNode::search` (`btree_node.h`): scan left to right while
`k > keys[i]`; on an exact hit return this node, on a leaf miss return
null, otherwise recurse into `children[i]`.  The source's null-pointer
guard on `children[i]` is the `none` branch of the match. -/
def BTreeNode.search : BTreeNode → Int → Option BTreeNode
  | .mk t lf ks cs, k =>
    let i := searchIdx ks k
    if i < ks.length ∧ ks.getD i 0 = k then some (.mk t lf ks cs)
    else if lf then none
    else
      match hc : cs.get? i with
      | none => none
      | some c => BTreeNode.search c k
termination_by nd _ => sizeOf nd
decreasing_by
  simp_wf
  have hmem : c ∈ cs := List.get?_mem hc
  have := List.sizeOf_lt_of_mem hmem
  omega

/-- `BTreeNode::search`, instrumented with the node state after the call.
The C++ method takes a non-const `this` but contains no assignment; this
embedding threads the visited nodes through the recursion (rebuilding each
node around the returned child state) so that the frame property -- the
state comes back unchanged -- is a provable statement rather than a
modelling assumption. -/
def BTreeNode.searchM : BTreeNode → Int → Option BTreeNode × BTreeNode
  | .mk t lf ks cs, k =>
    let i := searchIdx ks k
    if i < ks.length ∧ ks.getD i 0 = k then (some (.mk t lf ks cs), .mk t lf ks cs)
    else if lf then (none, .mk t lf ks cs)
    else
      match hc : cs.get? i with
      | none => (none, .mk t lf ks cs)
      | some c =>
        ((BTreeNode.searchM c k).1, .mk t lf ks (cs.set i (BTreeNode.searchM c k).2))
termination_by nd _ => sizeOf nd
decreasing_by
  all_goals
    simp_wf <;>
    · have hmem : c ∈ cs := List.get?_mem hc
      have := List.sizeOf_lt_of_mem hmem
      omega

mutual
/-- `BTreeNode::traverse` (`btree_node.h`): in-order walk.  A leaf emits
exactly its live keys; an internal node interleaves child subtrees and
keys.  The source prints the keys; the embedding returns the emitted
sequence. -/
def BTreeNode.traverse : BTreeNode → List Int
  | .mk _ lf ks cs => if lf then ks else BTreeNode.traverseGo ks cs
termination_by nd => (sizeOf nd, 0)
decreasing_by
  all_goals try simp_wf
  all_goals apply Prod.Lex.left
  all_goals try simp only [BTreeNode.mk.sizeOf_spec]
  all_goals omega

/-- The loop of `BTreeNode::traverse` for an internal node: for each `i`,
visit `children[i]` then emit `keys[i]`; finally visit `children[n]`.
Missing (null) children are skipped, as in the source's `if(children[i])`
guard. -/
def BTreeNode.traverseGo : List Int → List BTreeNode → List Int
  | [], [] => []
  | [], c :: _ => BTreeNode.traverse c
  | k :: ks, [] => k :: BTreeNode.traverseGo ks []
  | k :: ks, c :: cs => BTreeNode.traverse c ++ k :: BTreeNode.traverseGo ks cs
termination_by ks cs => (sizeOf cs, ks.length)
decreasing_by
  all_goals try simp_wf
  all_goals
    first
    | (apply Prod.Lex.right; omega)
    | (apply Prod.Lex.left
       try simp only [List.cons.sizeOf_spec, BTreeNode.mk.sizeOf_spec]
       omega)
end


mutual
/-- `BTreeNode::traverse`, instrumented with the node state after the call
(the method is `const`; the embedding threads the state to make that a
theorem). -/
def BTreeNode.traverseM : BTreeNode → List Int × BTreeNode
  | .mk t lf ks cs =>
    if lf then (ks, .mk t lf ks cs)
    else ((BTreeNode.traverseGoM ks cs).1, .mk t lf ks (BTreeNode.traverseGoM ks cs).2)
termination_by nd => (sizeOf nd, 0)
decreasing_by
  all_goals try simp_wf
  all_goals apply Prod.Lex.left
  all_goals try simp only [BTreeNode.mk.sizeOf_spec]
  all_goals omega

/-- The loop of the instrumented traversal. -/
def BTreeNode.traverseGoM : List Int → List BTreeNode → List Int × List BTreeNode
  | [], [] => ([], [])
  | [], c :: cs =>
    ((BTreeNode.traverseM c).1, (BTreeNode.traverseM c).2 :: cs)
  | k :: ks, [] => (k :: (BTreeNode.traverseGoM ks []).1, [])
  | k :: ks, c :: cs =>
    ((BTreeNode.traverseM c).1 ++ k :: (BTreeNode.traverseGoM ks cs).1,
      (BTreeNode.traverseM c).2 :: (BTreeNode.traverseGoM ks cs).2)
termination_by ks cs => (sizeOf cs, ks.length)
decreasing_by
  all_goals try simp_wf
  all_goals
    first
    | (apply Prod.Lex.right; omega)
    | (apply Prod.Lex.left
       try simp only [List.cons.sizeOf_spec, BTreeNode.mk.sizeOf_spec]
       omega)
end

/-- Height of a node's subtree: a leaf (no live children) has height 1; an
internal node is one more than its leftmost child.  (Under the B-tree
balance invariant every child has the same height.) -/
def BTreeNode.height : BTreeNode → Nat
  | .mk _ _ _ [] => 1
  | .mk _ _ _ (c :: _) => 1 + BTreeNode.height c
termination_by nd => sizeOf nd
decreasing_by
  simp_wf
  omega

/-- The right-to-left shifting loop of the leaf branch of
`BTreeNode::insert_non_full`, expressed on the reversed key list: walk from
the rightmost key while `keys[i] > k`, and place `k` in the vacated slot. -/
def insFromRight (k : Int) : List Int → List Int
  | [] => [k]
  | x :: xs => if k < x then x :: insFromRight k xs else k :: x :: xs

/-- Leaf insertion of `BTreeNode::insert_non_full`: shift all keys greater
than `k` one slot rightwards (scanning from the right) and insert `k`. -/
def leafInsert (ks : List Int) (k : Int) : List Int :=
  (insFromRight k ks.reverse).reverse

/-- Index `i+1` computed by the internal branch of
`BTreeNode::insert_non_full`: scan from the rightmost key while
`keys[i] > k`; the child to descend into is `children[i+1]`.  The scan
stops after passing exactly the trailing run of keys `> k`, so the index
is `n` minus the length of that run. -/
def descendIdx (ks : List Int) (k : Int) : Nat :=
  ks.length - (ks.reverse.takeWhile (fun x => decide (k < x))).length

/-- Replace `children[i]` of a node (the in-place child update
`children[i]->insert_non_full(k)` of the source). -/
def BTreeNode.setChild (nd : BTreeNode) (i : Nat) (c : BTreeNode) : BTreeNode :=
  match nd with
  | .mk t lf ks cs => .mk t lf ks (cs.set i c)

/-- The new sibling `z` allocated by `BTreeNode::split_child`: same degree
and leafness as `y`; it receives `y`'s keys at indices `t .. t+(t-2)`
(for a full `y` of `2t-1` keys these are the upper `t-1` keys) and, if `y`
is internal, `y`'s children at indices `t .. 2t-1`. -/
def splitZ (t : Nat) (y : BTreeNode) : BTreeNode :=
  .mk y.t y.is_leaf ((y.keys.drop t).take (t - 1))
    (if y.is_leaf then [] else (y.children.drop t).take t)

/-- The truncation of `y` performed by `BTreeNode::split_child`: the key
count drops to `t-1`, and (for internal `y`) the moved child slots
`t .. 2t-1` are nulled out, leaving the first `t` children live. -/
def splitYtrunc (t : Nat) (y : BTreeNode) : BTreeNode :=
  .mk y.t y.is_leaf (y.keys.take (t - 1))
    (if y.is_leaf then y.children else y.children.take t)

/-- `BTreeNode::split_child(i, y)` (`btree.h`): split the full child
`y = children[i]`.  A new node `z` receives `y`'s upper `t-1` keys
(`keys[t..2t-2]`) and, if `y` is internal, `y`'s upper `t` children
(`children[t..2t-1]`, which are nulled out in `y`); `y` is truncated to its
lower `t-1` keys; `z` is linked at `children[i+1]` (shifting the later
child slots right); `y`'s middle key `keys[t-1]` is inserted at `keys[i]`
(shifting the later keys right), incrementing `n`.  The source receives
`y` as a pointer equal to `children[i]`; the embedding fetches it from the
child list (a null `children[i]` would be dereferenced by the source and
cannot occur in a well-formed tree). -/
def BTreeNode.split_child (nd : BTreeNode) (i : Nat) : BTreeNode :=
  match nd with
  | .mk t lf ks cs =>
    match cs.get? i with
    | none => .mk t lf ks cs
    | some y =>
      .mk t lf (ks.insertIdx i (y.keys.getD (t - 1) 0))
        ((cs.set i (splitYtrunc t y)).insertIdx (i + 1) (splitZ t y))

/-- `sizeOf` of a list prefix is bounded by that of the list. -/
theorem sizeOf_take_le {α : Type} [SizeOf α] (l : List α) (m : Nat) :
    sizeOf (l.take m) ≤ sizeOf l := by
  induction l generalizing m with
  | nil => cases m <;> simp [List.take]
  | cons a l ih =>
    cases m with
    | zero =>
      simp only [List.take_zero, List.nil.sizeOf_spec, List.cons.sizeOf_spec]
      omega
    | succ m =>
      have := ih m
      simp only [List.take_succ_cons, List.cons.sizeOf_spec]
      omega

/-- `sizeOf` of a list suffix is bounded by that of the list. -/
theorem sizeOf_drop_le {α : Type} [SizeOf α] (l : List α) (m : Nat) :
    sizeOf (l.drop m) ≤ sizeOf l := by
  induction l generalizing m with
  | nil => cases m <;> simp
  | cons a l ih =>
    cases m with
    | zero => simp
    | succ m =>
      have := ih m
      simp only [List.drop_succ_cons, List.cons.sizeOf_spec]
      omega

/-- The `sizeOf` of a list is at least 1. -/
theorem one_le_sizeOf_list {α : Type} [SizeOf α] (l : List α) : 1 ≤ sizeOf l := by
  cases l with
  | nil => simp
  | cons a l =>
    simp only [List.cons.sizeOf_spec]
    omega

/-- Membership in `insertIdx` comes from the inserted element or the
original list. -/
theorem mem_insertIdx_cases {α : Type} {a b : α} {l : List α} {m : Nat}
    (h : a ∈ l.insertIdx m b) : a = b ∨ a ∈ l := by
  induction l generalizing m with
  | nil =>
    cases m with
    | zero =>
      rw [List.insertIdx_zero] at h
      simpa using h
    | succ m =>
      rw [List.insertIdx_succ_nil] at h
      exact Or.inr h
  | cons x xs ih =>
    cases m with
    | zero =>
      rw [List.insertIdx_zero] at h
      rcases List.mem_cons.mp h with h1 | h1
      · exact Or.inl h1
      · exact Or.inr h1
    | succ m =>
      rw [List.insertIdx_succ_cons] at h
      rcases List.mem_cons.mp h with h1 | h1
      · exact Or.inr (by simp [h1])
      · rcases ih h1 with h2 | h2
        · exact Or.inl h2
        · exact Or.inr (List.mem_cons_of_mem _ h2)

/-- Both pieces of a split have `sizeOf` at most that of the node that was
split. -/
theorem sizeOf_split_piece_le (y : BTreeNode) (t : Nat) :
    sizeOf (splitZ t y) ≤ sizeOf y ∧ sizeOf (splitYtrunc t y) ≤ sizeOf y := by
  obtain ⟨yt, ylf, yks, ycs⟩ := y
  rw [splitZ, splitYtrunc]
  have h1 : sizeOf ((yks.drop t).take (t - 1)) ≤ sizeOf yks :=
    le_trans (sizeOf_take_le _ _) (sizeOf_drop_le _ _)
  have h2 : sizeOf ((ycs.drop t).take t) ≤ sizeOf ycs :=
    le_trans (sizeOf_take_le _ _) (sizeOf_drop_le _ _)
  have h3 : sizeOf (yks.take (t - 1)) ≤ sizeOf yks := sizeOf_take_le _ _
  have h4 : sizeOf (ycs.take t) ≤ sizeOf ycs := sizeOf_take_le _ _
  have h5 : (1 : Nat) ≤ sizeOf ycs := one_le_sizeOf_list ycs
  cases ylf <;>
    simp only [BTreeNode.t, BTreeNode.is_leaf, BTreeNode.keys, BTreeNode.children,
      Bool.false_eq_true, if_false, if_true, BTreeNode.mk.sizeOf_spec,
      List.nil.sizeOf_spec] <;>
    omega

/-- `BTreeNode::insert_non_full` (`btree.h`).  Precondition in the source:
the node is not full.  Leaf: shift the keys greater than `k` rightward and
place `k`.  Internal: find the child `children[i+1]` to descend into; if
it is full, split it first and re-compare `k` with the promoted separator
`keys[i+1]` to pick the correct post-split child; then recurse.  The
`none` branches correspond to null-pointer dereferences in the source,
impossible in a well-formed tree. -/
def BTreeNode.insert_non_full : BTreeNode → Int → BTreeNode
  | .mk t lf ks cs, k =>
    if lf then .mk t lf (leafInsert ks k) cs
    else
      let i1 := descendIdx ks k
      match hy : cs.get? i1 with
      | none => .mk t lf ks cs
      | some y =>
        if y.keys.length = 2 * t - 1 then
          let j := if (BTreeNode.split_child (.mk t lf ks cs) i1).keys.getD i1 0 < k
            then i1 + 1 else i1
          match hz : (BTreeNode.split_child (.mk t lf ks cs) i1).children.get? j with
          | none => BTreeNode.split_child (.mk t lf ks cs) i1
          | some c =>
            (BTreeNode.split_child (.mk t lf ks cs) i1).setChild j
              (BTreeNode.insert_non_full c k)
        else
          .mk t lf ks (cs.set i1 (BTreeNode.insert_non_full y k))
termination_by nd _ => sizeOf nd
decreasing_by
  · -- recursing into a child of the node produced by split_child
    try simp_wf
    simp only [BTreeNode.split_child, BTreeNode.children, hy] at hz
    have hmem : c ∈ ((cs.set i1 (splitYtrunc t y)).insertIdx (i1 + 1) (splitZ t y)) :=
      List.get?_mem hz
    have hy_mem : y ∈ cs := List.get?_mem hy
    have hy_lt : sizeOf y < sizeOf cs := List.sizeOf_lt_of_mem hy_mem
    have hpieces := sizeOf_split_piece_le y t
    try simp only [BTreeNode.mk.sizeOf_spec]
    rcases mem_insertIdx_cases hmem with hc | hc
    · subst hc; omega
    · rcases List.mem_or_eq_of_mem_set hc with hc2 | hc2
      · have := List.sizeOf_lt_of_mem hc2
        omega
      · subst hc2; omega
  · -- recursing into the (non-full) child itself
    try simp_wf
    have hy_mem : y ∈ cs := List.get?_mem hy
    have := List.sizeOf_lt_of_mem hy_mem
    try simp only [BTreeNode.mk.sizeOf_spec]
    omega

/-- `class BTree` (`btree.h`): the root pointer (null for an empty tree)
and the minimum degree. -/
structure BTree : Type where
  root : Option BTreeNode
  t : Nat

/-- The `BTree(_t)` constructor: empty root. -/
def BTree.new (t : Nat) : BTree := ⟨none, t⟩

/-- `BTree::search`: false on an empty tree, otherwise whether the
recursive node search found a node. -/
def BTree.search (tr : BTree) (k : Int) : Bool :=
  match tr.root with
  | none => false
  | some r => (r.search k).isSome

/-- `BTree::traverse`: the emitted key sequence (empty for an empty
tree). -/
def BTree.traverse (tr : BTree) : List Int :=
  match tr.root with
  | none => []
  | some r => r.traverse

/-- `BTree::insert` (`btree.h`): empty tree gets a fresh root leaf holding
`k`; a full root is split below a fresh internal root `s` (choosing the
post-split child by comparing `k` with the promoted separator `s->keys[0]`)
before delegating to `insert_non_full`; otherwise delegate directly. -/
def BTree.insert (tr : BTree) (k : Int) : BTree :=
  match tr.root with
  | none => ⟨some (.mk tr.t true [k] []), tr.t⟩
  | some r =>
    if r.keys.length = 2 * tr.t - 1 then
      let s0 : BTreeNode := .mk tr.t false [] [r]
      let s1 := s0.split_child 0
      let i : Nat := if s1.keys.getD 0 0 < k then 1 else 0
      match s1.children.get? i with
      | none => ⟨some s1, tr.t⟩
      | some c => ⟨some (s1.setChild i (c.insert_non_full k)), tr.t⟩
    else
      ⟨some (r.insert_non_full k), tr.t⟩

/-- Height of the tree: 0 when empty, else the root subtree height. -/
def BTree.height (tr : BTree) : Nat :=
  match tr.root with
  | none => 0
  | some r => r.height

/-- `BTree::search` instrumented with the tree state after the call. -/
def BTree.searchM (tr : BTree) (k : Int) : Bool × BTree :=
  match tr.root with
  | none => (false, tr)
  | some r => ((r.searchM k).1.isSome, ⟨some (r.searchM k).2, tr.t⟩)

/-- `BTree::traverse` instrumented with the tree state after the call. -/
def BTree.traverseM (tr : BTree) : List Int × BTree :=
  match tr.root with
  | none => ([], tr)
  | some r => (r.traverseM.1, ⟨some r.traverseM.2, tr.t⟩)

/-- Insert a list of keys left to right. -/
def insertAll (tr : BTree) (ks : List Int) : BTree :=
  ks.foldl BTree.insert tr

/-- Tree states reachable from an empty tree of degree `t` by `insert`
calls. -/
inductive Reachable (t : Nat) : BTree → Prop where
  | empty : Reachable t (BTree.new t)
  | ins (tr : BTree) (k : Int) : Reachable t tr → Reachable t (tr.insert k)

/-- `Subnode m nd`: `m` occurs in the subtree rooted at `nd`. -/
inductive Subnode : BTreeNode → BTreeNode → Prop where
  | refl (nd : BTreeNode) : Subnode nd nd
  | step (m c nd : BTreeNode) : c ∈ nd.children → Subnode m c → Subnode m nd

/-! ## Well-formedness invariant

`WF t rt h lo hi nd` says that `nd` is a structurally valid B-tree node of
minimum degree `t` and height `h`, all of whose keys lie in the (optional,
inclusive) window `[lo, hi]`; `rt` records whether the node is the root
(only the root may have fewer than `t-1` keys).  `WFChain` is the
corresponding invariant for the alternating child/key sequence of an
internal node: each child is bracketed by its neighbouring keys.  The
windows are inclusive because the insertion algorithm sends a key equal to
a separator into the child to the separator's right (and, at a root split,
to the left), so equal keys may sit on either side of a separator. -/

/-- Every element of the optional lower bound is `≤ x`. -/
def lbLe (lo : Option Int) (x : Int) : Prop := ∀ a ∈ lo, a ≤ x

/-- `x` is `≤` every element of the optional upper bound. -/
def ubGe (hi : Option Int) (x : Int) : Prop := ∀ b ∈ hi, x ≤ b

/-- `x` lies in the inclusive window `[lo, hi]`. -/
def inBnd (lo hi : Option Int) (x : Int) : Prop := lbLe lo x ∧ ubGe hi x

mutual
/-- Well-formedness of a node (see the section comment). -/
inductive WF (t : Nat) : Bool → Nat → Option Int → Option Int → BTreeNode → Prop where
  | leaf (rt : Bool) (ks : List Int) (lo hi : Option Int)
      (hmin : rt = true ∨ t - 1 ≤ ks.length)
      (hmax : ks.length ≤ 2 * t - 1)
      (hsort : List.Chain' (· ≤ ·) ks)
      (hbnd : ∀ x ∈ ks, inBnd lo hi x) :
      WF t rt 1 lo hi (.mk t true ks [])
  | node (rt : Bool) (h : Nat) (ks : List Int) (cs : List BTreeNode) (lo hi : Option Int)
      (hmin : rt = true ∨ t - 1 ≤ ks.length)
      (hmax : ks.length ≤ 2 * t - 1)
      (hch : WFChain t h lo hi ks cs) :
      WF t rt (h + 1) lo hi (.mk t false ks cs)

/-- Well-formedness of the child/key chain
`c₀, k₀, c₁, k₁, …, k_{n-1}, c_n` of an internal node, with `cᵢ` bracketed
by `k_{i-1}` (or `lo`) below and `kᵢ` (or `hi`) above. -/
inductive WFChain (t : Nat) : Nat → Option Int → Option Int → List Int → List BTreeNode → Prop where
  | single (h : Nat) (lo hi : Option Int) (c : BTreeNode)
      (hc : WF t false h lo hi c) :
      WFChain t h lo hi [] [c]
  | cons (h : Nat) (lo hi : Option Int) (k : Int) (ks : List Int) (c : BTreeNode)
      (cs : List BTreeNode)
      (hlo : lbLe lo k) (hhi : ubGe hi k)
      (hc : WF t false h lo (some k) c)
      (hrest : WFChain t h (some k) hi ks cs) :
      WFChain t h lo hi (k :: ks) (c :: cs)
end

/-- Well-formedness of a whole tree: valid degree, and the root (if any)
is a well-formed root node with an unconstrained key window. -/
def TreeWF (tr : BTree) : Prop :=
  2 ≤ tr.t ∧ (tr.root = none ∨ ∃ h r, tr.root = some r ∧ WF tr.t true h none none r)

/-! ## Equation lemmas

The recursive functions above are compiled by well-founded recursion, so
their defining equations do not hold by `rfl`; the lemmas in this section
restate them in a form usable by `simp` and by hand. -/

theorem insert_non_full_leaf (t : Nat) (ks : List Int) (cs : List BTreeNode) (k : Int) :
    BTreeNode.insert_non_full (.mk t true ks cs) k = .mk t true (leafInsert ks k) cs := by
  rw [BTreeNode.insert_non_full]
  simp

theorem insert_non_full_notfull (t : Nat) (ks : List Int) (cs : List BTreeNode) (k : Int)
    (y : BTreeNode) (hy : cs.get? (descendIdx ks k) = some y)
    (hnf : ¬ y.keys.length = 2 * t - 1) :
    BTreeNode.insert_non_full (.mk t false ks cs) k
      = .mk t false ks (cs.set (descendIdx ks k) (BTreeNode.insert_non_full y k)) := by
  rw [BTreeNode.insert_non_full]
  simp only [Bool.false_eq_true, if_false]
  split
  · next heq => rw [hy] at heq; cases heq
  · next y' heq =>
    rw [hy] at heq
    cases heq
    rw [if_neg hnf]

theorem insert_non_full_full (t : Nat) (ks : List Int) (cs : List BTreeNode) (k : Int)
    (y c : BTreeNode) (hy : cs.get? (descendIdx ks k) = some y)
    (hf : y.keys.length = 2 * t - 1)
    (hz : (BTreeNode.split_child (.mk t false ks cs) (descendIdx ks k)).children.get?
        (if (BTreeNode.split_child (.mk t false ks cs) (descendIdx ks k)).keys.getD
          (descendIdx ks k) 0 < k then descendIdx ks k + 1 else descendIdx ks k)
        = some c) :
    BTreeNode.insert_non_full (.mk t false ks cs) k
      = (BTreeNode.split_child (.mk t false ks cs) (descendIdx ks k)).setChild
          (if (BTreeNode.split_child (.mk t false ks cs) (descendIdx ks k)).keys.getD
            (descendIdx ks k) 0 < k then descendIdx ks k + 1 else descendIdx ks k)
          (BTreeNode.insert_non_full c k) := by
  rw [BTreeNode.insert_non_full]
  simp only [Bool.false_eq_true, if_false]
  split
  · next heq => rw [hy] at heq; cases heq
  · next y' heq =>
    rw [hy] at heq
    cases heq
    rw [if_pos hf]
    split
    · next heq2 => rw [hz] at heq2; cases heq2
    · next c' heq2 =>
      rw [hz] at heq2
      cases heq2
      rfl

theorem search_hit (t : Nat) (lf : Bool) (ks : List Int) (cs : List BTreeNode) (k : Int)
    (h1 : searchIdx ks k < ks.length) (h2 : ks.getD (searchIdx ks k) 0 = k) :
    BTreeNode.search (.mk t lf ks cs) k = some (.mk t lf ks cs) := by
  rw [BTreeNode.search]
  exact if_pos ⟨h1, h2⟩

theorem search_leaf_miss (t : Nat) (ks : List Int) (cs : List BTreeNode) (k : Int)
    (h : ¬ (searchIdx ks k < ks.length ∧ ks.getD (searchIdx ks k) 0 = k)) :
    BTreeNode.search (.mk t true ks cs) k = none := by
  rw [BTreeNode.search]
  rw [if_neg h]
  simp

theorem search_node_child (t : Nat) (ks : List Int) (cs : List BTreeNode) (k : Int)
    (c : BTreeNode)
    (h : ¬ (searchIdx ks k < ks.length ∧ ks.getD (searchIdx ks k) 0 = k))
    (hc : cs.get? (searchIdx ks k) = some c) :
    BTreeNode.search (.mk t false ks cs) k = BTreeNode.search c k := by
  rw [BTreeNode.search]
  rw [if_neg h]
  simp only [Bool.false_eq_true, if_false]
  split
  · next heq => rw [hc] at heq; cases heq
  · next c' heq => rw [hc] at heq; cases heq; rfl

theorem search_node_nochild (t : Nat) (ks : List Int) (cs : List BTreeNode) (k : Int)
    (h : ¬ (searchIdx ks k < ks.length ∧ ks.getD (searchIdx ks k) 0 = k))
    (hc : cs.get? (searchIdx ks k) = none) :
    BTreeNode.search (.mk t false ks cs) k = none := by
  rw [BTreeNode.search]
  rw [if_neg h]
  simp only [Bool.false_eq_true, if_false]
  split
  · rfl
  · next c' heq => rw [hc] at heq; cases heq

theorem traverse_leaf (t : Nat) (ks : List Int) (cs : List BTreeNode) :
    BTreeNode.traverse (.mk t true ks cs) = ks := by
  rw [BTreeNode.traverse]
  simp

theorem traverse_node (t : Nat) (ks : List Int) (cs : List BTreeNode) :
    BTreeNode.traverse (.mk t false ks cs) = BTreeNode.traverseGo ks cs := by
  rw [BTreeNode.traverse]
  simp

theorem traverseGo_nil_nil : BTreeNode.traverseGo [] [] = [] := by
  rw [BTreeNode.traverseGo]

theorem traverseGo_nil_cons (c : BTreeNode) (cs : List BTreeNode) :
    BTreeNode.traverseGo [] (c :: cs) = BTreeNode.traverse c := by
  rw [BTreeNode.traverseGo]

theorem traverseGo_cons_nil (k : Int) (ks : List Int) :
    BTreeNode.traverseGo (k :: ks) [] = k :: BTreeNode.traverseGo ks [] := by
  rw [BTreeNode.traverseGo]

theorem traverseGo_cons_cons (k : Int) (ks : List Int) (c : BTreeNode) (cs : List BTreeNode) :
    BTreeNode.traverseGo (k :: ks) (c :: cs)
      = BTreeNode.traverse c ++ k :: BTreeNode.traverseGo ks cs := by
  rw [BTreeNode.traverseGo]

theorem height_nochild (t : Nat) (lf : Bool) (ks : List Int) :
    BTreeNode.height (.mk t lf ks []) = 1 := by
  rw [BTreeNode.height]

theorem height_cons (t : Nat) (lf : Bool) (ks : List Int) (c : BTreeNode)
    (cs : List BTreeNode) :
    BTreeNode.height (.mk t lf ks (c :: cs)) = 1 + BTreeNode.height c := by
  rw [BTreeNode.height]

theorem split_child_eq (t : Nat) (lf : Bool) (ks : List Int) (cs : List BTreeNode)
    (i : Nat) (y : BTreeNode) (hy : cs.get? i = some y) :
    BTreeNode.split_child (.mk t lf ks cs) i
      = .mk t lf (ks.insertIdx i (y.keys.getD (t - 1) 0))
          ((cs.set i (splitYtrunc t y)).insertIdx (i + 1) (splitZ t y)) := by
  rw [BTreeNode.split_child]
  rw [hy]

theorem tree_insert_empty (t : Nat) (k : Int) :
    BTree.insert ⟨none, t⟩ k = ⟨some (.mk t true [k] []), t⟩ := rfl

theorem tree_insert_nonfull (t : Nat) (r : BTreeNode) (k : Int)
    (h : ¬ r.keys.length = 2 * t - 1) :
    BTree.insert ⟨some r, t⟩ k = ⟨some (r.insert_non_full k), t⟩ := by
  rw [BTree.insert]
  simp only [if_neg h]

theorem tree_insert_full (t : Nat) (r : BTreeNode) (k : Int) (c : BTreeNode)
    (h : r.keys.length = 2 * t - 1)
    (hc : (BTreeNode.split_child (.mk t false [] [r]) 0).children.get?
        (if (BTreeNode.split_child (.mk t false [] [r]) 0).keys.getD 0 0 < k then 1 else 0)
        = some c) :
    BTree.insert ⟨some r, t⟩ k
      = ⟨some ((BTreeNode.split_child (.mk t false [] [r]) 0).setChild
          (if (BTreeNode.split_child (.mk t false [] [r]) 0).keys.getD 0 0 < k then 1 else 0)
          (c.insert_non_full k)), t⟩ := by
  rw [BTree.insert]
  simp only [if_pos h]
  rw [hc]

/-! ## Small list facts used throughout -/

theorem get?_set_self {α : Type} (l : List α) (i : Nat) (a : α) (h : i < l.length) :
    (l.set i a).get? i = some a := by
  induction l generalizing i with
  | nil => simp at h
  | cons x xs ih =>
    cases i with
    | zero => simp
    | succ i => simpa using ih i (by simpa using h)

theorem set_get?_self {α : Type} (l : List α) (i : Nat) (a : α) (h : l.get? i = some a) :
    l.set i a = l := by
  induction l generalizing i with
  | nil => simp
  | cons x xs ih =>
    cases i with
    | zero => simp at h; simp [h]
    | succ i =>
      simp only [List.get?_cons_succ] at h
      simp [ih i h]

theorem get?_insertIdx_self {α : Type} (l : List α) (i : Nat) (a : α) (h : i ≤ l.length) :
    (l.insertIdx i a).get? i = some a := by
  induction l generalizing i with
  | nil =>
    cases i with
    | zero => simp
    | succ i => simp at h
  | cons x xs ih =>
    cases i with
    | zero => simp
    | succ i =>
      rw [List.insertIdx_succ_cons]
      simpa using ih i (by simpa using h)

theorem getD_insertIdx_self (l : List Int) (i : Nat) (a d : Int) (h : i ≤ l.length) :
    (l.insertIdx i a).getD i d = a := by
  have h2 := get?_insertIdx_self l i a h
  rw [List.get?_eq_getElem?] at h2
  simp [List.getD, h2]

theorem get?_insertIdx_lt {α : Type} (l : List α) (i j : Nat) (a : α) (h : j < i) :
    (l.insertIdx i a).get? j = l.get? j := by
  induction l generalizing i j with
  | nil =>
    cases i with
    | zero => omega
    | succ i => rw [List.insertIdx_succ_nil]
  | cons x xs ih =>
    cases i with
    | zero => omega
    | succ i =>
      rw [List.insertIdx_succ_cons]
      cases j with
      | zero => simp
      | succ j => simpa using ih i j (by omega)

theorem set_insertIdx_self {α : Type} (l : List α) (i : Nat) (a b : α) :
    (l.insertIdx i a).set i b = l.insertIdx i b := by
  induction l generalizing i with
  | nil =>
    cases i with
    | zero => simp
    | succ i => simp [List.insertIdx_succ_nil]
  | cons x xs ih =>
    cases i with
    | zero => simp
    | succ i =>
      rw [List.insertIdx_succ_cons, List.insertIdx_succ_cons]
      simp [ih i]

theorem set_insertIdx_comm {α : Type} (l : List α) (i j : Nat) (a b : α) (h : j < i) :
    (l.insertIdx i a).set j b = (l.set j b).insertIdx i a := by
  induction l generalizing i j with
  | nil =>
    cases i with
    | zero => omega
    | succ i => simp [List.insertIdx_succ_nil]
  | cons x xs ih =>
    cases i with
    | zero => omega
    | succ i =>
      rw [List.insertIdx_succ_cons]
      cases j with
      | zero => simp
      | succ j =>
        simp only [List.set_cons_succ, List.insertIdx_succ_cons]
        rw [ih i j (by omega)]

theorem takeWhile_length_le {α : Type} (p : α → Bool) (l : List α) :
    (l.takeWhile p).length ≤ l.length := by
  induction l with
  | nil => simp
  | cons x xs ih =>
    rw [List.takeWhile_cons]
    by_cases h : p x
    · simp [h]; omega
    · simp [h]

/-! ## Properties of the two index scans -/

theorem searchIdx_nil (k : Int) : searchIdx [] k = 0 := rfl

theorem searchIdx_cons (x : Int) (xs : List Int) (k : Int) :
    searchIdx (x :: xs) k = if x < k then searchIdx xs k + 1 else 0 := by
  simp only [searchIdx, List.takeWhile_cons]
  by_cases h : x < k
  · simp [h]
  · simp [h]

theorem searchIdx_le (ks : List Int) (k : Int) : searchIdx ks k ≤ ks.length :=
  takeWhile_length_le _ ks

theorem searchIdx_lt_of_lt (ks : List Int) (k : Int) :
    ∀ j, j < searchIdx ks k → ks.getD j 0 < k := by
  induction ks with
  | nil => intro j hj; rw [searchIdx_nil] at hj; omega
  | cons x xs ih =>
    intro j hj
    rw [searchIdx_cons] at hj
    by_cases h : x < k
    · rw [if_pos h] at hj
      cases j with
      | zero => simpa using h
      | succ j => simpa using ih j (by omega)
    · rw [if_neg h] at hj; omega

theorem searchIdx_not_lt (ks : List Int) (k : Int) (h : searchIdx ks k < ks.length) :
    ¬ ks.getD (searchIdx ks k) 0 < k := by
  induction ks with
  | nil => simp at h
  | cons x xs ih =>
    rw [searchIdx_cons] at h ⊢
    by_cases hx : x < k
    · rw [if_pos hx] at h ⊢
      simpa using ih (by simpa using h)
    · rw [if_neg hx]
      simpa using hx

theorem descendIdx_nil (k : Int) : descendIdx [] k = 0 := rfl

theorem descendIdx_concat (ks : List Int) (x k : Int) :
    descendIdx (ks ++ [x]) k = if k < x then descendIdx ks k else ks.length + 1 := by
  have hlen := takeWhile_length_le (fun y => decide (k < y)) ks.reverse
  rw [List.length_reverse] at hlen
  by_cases h : k < x
  · simp [descendIdx, List.takeWhile_cons, h]
    try omega
  · simp [descendIdx, List.takeWhile_cons, h]
    try omega

theorem descendIdx_le (ks : List Int) (k : Int) : descendIdx ks k ≤ ks.length :=
  Nat.sub_le _ _

theorem descendIdx_pred_le (ks : List Int) (k : Int) (h : 0 < descendIdx ks k) :
    ks.getD (descendIdx ks k - 1) 0 ≤ k := by
  induction ks using List.reverseRecOn with
  | nil => rw [descendIdx_nil] at h; omega
  | append_singleton ks x ih =>
    rw [descendIdx_concat] at h ⊢
    by_cases hx : k < x
    · rw [if_pos hx] at h ⊢
      have hle := descendIdx_le ks k
      rw [List.getD_append _ _ _ _ (by omega)]
      exact ih h
    · rw [if_neg hx]
      rw [Nat.add_sub_cancel, List.getD_append_right _ _ _ _ (le_refl _), Nat.sub_self]
      simpa using le_of_not_lt hx

theorem descendIdx_lt_getD (ks : List Int) (k : Int) (h : descendIdx ks k < ks.length) :
    k < ks.getD (descendIdx ks k) 0 := by
  induction ks using List.reverseRecOn with
  | nil => simp at h
  | append_singleton ks x ih =>
    rw [descendIdx_concat] at h ⊢
    by_cases hx : k < x
    · rw [if_pos hx] at h ⊢
      rcases Nat.lt_or_ge (descendIdx ks k) ks.length with hlt | hge
      · rw [List.getD_append _ _ _ _ hlt]
        exact ih hlt
      · have heq : descendIdx ks k = ks.length := le_antisymm (descendIdx_le ks k) hge
        rw [heq, List.getD_append_right _ _ _ _ (le_refl _), Nat.sub_self]
        simpa using hx
    · rw [if_neg hx] at h
      rw [List.length_append, List.length_singleton] at h
      omega

/-! ## Chain lemmas -/

/-- The lower bound bracketing `children[i]`: `keys[i-1]` for `i > 0`,
else the node's own lower window bound. -/
def loB (lo : Option Int) (ks : List Int) (i : Nat) : Option Int :=
  if i = 0 then lo else some (ks.getD (i - 1) 0)

/-- The upper bound bracketing `children[i]`: `keys[i]` for `i < n`, else
the node's own upper window bound. -/
def hiB (hi : Option Int) (ks : List Int) (i : Nat) : Option Int :=
  if i = ks.length then hi else some (ks.getD i 0)

theorem loB_zero (lo : Option Int) (ks : List Int) : loB lo ks 0 = lo := by simp [loB]

theorem loB_cons_succ (lo : Option Int) (k : Int) (ks : List Int) (i : Nat) :
    loB lo (k :: ks) (i + 1) = loB (some k) ks i := by
  cases i with
  | zero => simp [loB]
  | succ i => simp [loB]

theorem hiB_cons_zero (hi : Option Int) (k : Int) (ks : List Int) :
    hiB hi (k :: ks) 0 = some k := by
  simp [hiB]

theorem hiB_cons_succ (hi : Option Int) (k : Int) (ks : List Int) (i : Nat) :
    hiB hi (k :: ks) (i + 1) = hiB hi ks i := by
  by_cases h : i = ks.length
  · simp [hiB, h]
  · simp [hiB, h]

theorem hiB_nil (hi : Option Int) : hiB hi [] 0 = hi := by simp [hiB]

theorem WFChain.length_eq {t h : Nat} {lo hi : Option Int} {ks : List Int}
    {cs : List BTreeNode} (hch : WFChain t h lo hi ks cs) : cs.length = ks.length + 1 := by
  induction ks generalizing lo cs with
  | nil => cases hch; simp
  | cons k ks ih =>
    cases hch with
    | cons _ _ _ _ _ _ _ hlo hhi hc hrest => simpa using ih hrest

theorem WFChain.keys_bnd {t h : Nat} {lo hi : Option Int} {ks : List Int}
    {cs : List BTreeNode} (hch : WFChain t h lo hi ks cs) : ∀ x ∈ ks, inBnd lo hi x := by
  induction ks generalizing lo cs with
  | nil => simp
  | cons k ks ih =>
    cases hch with
    | cons _ _ _ _ _ _ _ hlo hhi hc hrest =>
      intro x hx
      rcases List.mem_cons.mp hx with h1 | h1
      · exact h1 ▸ ⟨hlo, hhi⟩
      · rcases ih hrest x h1 with ⟨h2, h3⟩
        refine ⟨?_, h3⟩
        intro a ha
        exact le_trans (hlo a ha) (h2 k rfl)

theorem WFChain.keys_sorted {t h : Nat} {lo hi : Option Int} {ks : List Int}
    {cs : List BTreeNode} (hch : WFChain t h lo hi ks cs) :
    List.Chain' (· ≤ ·) ks := by
  induction ks generalizing lo cs with
  | nil => simp
  | cons k ks ih =>
    cases hch with
    | cons _ _ _ _ _ _ _ hlo hhi hc hrest =>
      rw [List.chain'_cons']
      refine ⟨?_, ih hrest⟩
      intro y hy
      have : y ∈ ks := List.mem_of_mem_head? hy
      exact (hrest.keys_bnd y this).1 k rfl

theorem chain_head_wf {t h : Nat} {lo hi : Option Int} {ks : List Int}
    {cs : List BTreeNode} (hch : WFChain t h lo hi ks cs) :
    ∃ c cs' hi', cs = c :: cs' ∧ WF t false h lo hi' c := by
  cases hch with
  | single _ _ _ c hc => exact ⟨c, [], hi, rfl, hc⟩
  | cons _ _ _ k _ c cs _ _ hc _ => exact ⟨c, cs, some k, rfl, hc⟩

theorem chain_mem_wf {t h : Nat} {lo hi : Option Int} {ks : List Int}
    {cs : List BTreeNode} (hch : WFChain t h lo hi ks cs) :
    ∀ c ∈ cs, ∃ lo' hi', WF t false h lo' hi' c := by
  induction ks generalizing lo cs with
  | nil =>
    cases hch with
    | single _ _ _ c hc =>
      intro c' hc'
      rcases List.mem_singleton.mp hc' with rfl
      exact ⟨lo, hi, hc⟩
  | cons k ks ih =>
    cases hch with
    | cons _ _ _ _ _ _ _ hlo hhi hc hrest =>
      intro c' hc'
      rcases List.mem_cons.mp hc' with rfl | h1
      · exact ⟨lo, some k, hc⟩
      · exact ih hrest c' h1

theorem chain_view {t h : Nat} {lo hi : Option Int} {ks : List Int}
    {cs : List BTreeNode} (hch : WFChain t h lo hi ks cs) :
    ∀ i ≤ ks.length, ∃ y, cs.get? i = some y ∧ WF t false h (loB lo ks i) (hiB hi ks i) y := by
  induction ks generalizing lo cs with
  | nil =>
    cases hch with
    | single _ _ _ c hc =>
      intro i hi0
      have : i = 0 := by simpa using hi0
      subst this
      exact ⟨c, rfl, by rw [loB_zero, hiB_nil]; exact hc⟩
  | cons k ks ih =>
    cases hch with
    | cons _ _ _ _ _ _ _ hlo hhi hc hrest =>
      intro i hile
      cases i with
      | zero =>
        exact ⟨_, rfl, by rw [loB_zero, hiB_cons_zero]; exact hc⟩
      | succ i =>
        obtain ⟨y, hy, hwf⟩ := ih hrest i (by simpa using hile)
        refine ⟨y, by simpa using hy, ?_⟩
        rw [loB_cons_succ, hiB_cons_succ]
        exact hwf

theorem chain_set {t h : Nat} {lo hi : Option Int} {ks : List Int}
    {cs : List BTreeNode} (hch : WFChain t h lo hi ks cs) :
    ∀ i y', i ≤ ks.length → WF t false h (loB lo ks i) (hiB hi ks i) y' →
      WFChain t h lo hi ks (cs.set i y') := by
  induction ks generalizing lo cs with
  | nil =>
    cases hch with
    | single _ _ _ c hc =>
      intro i y' hi0 hwf
      have : i = 0 := by simpa using hi0
      subst this
      rw [loB_zero, hiB_nil] at hwf
      exact WFChain.single _ _ _ _ hwf
  | cons k ks ih =>
    cases hch with
    | cons _ _ _ _ _ _ _ hlo hhi hc hrest =>
      intro i y' hile hwf
      cases i with
      | zero =>
        rw [loB_zero, hiB_cons_zero] at hwf
        exact WFChain.cons _ _ _ _ _ _ _ hlo hhi hwf hrest
      | succ i =>
        rw [loB_cons_succ, hiB_cons_succ] at hwf
        rw [List.set_cons_succ]
        exact WFChain.cons _ _ _ _ _ _ _ hlo hhi hc
          (ih hrest i y' (by simpa using hile) hwf)

theorem chain_splice {t h : Nat} {lo hi : Option Int} {ks : List Int}
    {cs : List BTreeNode} (hch : WFChain t h lo hi ks cs) :
    ∀ i m y₁ y₂, i ≤ ks.length →
      lbLe (loB lo ks i) m → ubGe (hiB hi ks i) m →
      WF t false h (loB lo ks i) (some m) y₁ →
      WF t false h (some m) (hiB hi ks i) y₂ →
      WFChain t h lo hi (ks.insertIdx i m) ((cs.set i y₁).insertIdx (i + 1) y₂) := by
  induction ks generalizing lo cs with
  | nil =>
    cases hch with
    | single _ _ _ c hc =>
      intro i m y₁ y₂ hi0 hm1 hm2 hw1 hw2
      have : i = 0 := by simpa using hi0
      subst this
      rw [loB_zero] at hm1 hw1
      rw [hiB_nil] at hm2 hw2
      simp only [List.insertIdx_zero, List.set_cons_zero, List.insertIdx_succ_cons]
      exact WFChain.cons _ _ _ _ _ _ _ hm1 hm2 hw1 (WFChain.single _ _ _ _ hw2)
  | cons k ks ih =>
    cases hch with
    | cons _ _ _ _ _ _ _ hlo hhi hc hrest =>
      intro i m y₁ y₂ hile hm1 hm2 hw1 hw2
      cases i with
      | zero =>
        rw [loB_zero] at hm1 hw1
        rw [hiB_cons_zero] at hm2 hw2
        simp only [List.insertIdx_zero, List.set_cons_zero, List.insertIdx_succ_cons]
        have hmk : m ≤ k := hm2 k rfl
        refine WFChain.cons _ _ _ _ _ _ _ hm1 ?_ hw1 ?_
        · intro b hb
          exact le_trans hmk (hhi b hb)
        · refine WFChain.cons _ _ _ _ _ _ _ ?_ hhi hw2 hrest
          intro a ha
          rcases Option.mem_some_iff.mp ha with rfl
          exact hmk
      | succ i =>
        rw [loB_cons_succ] at hm1 hw1
        rw [hiB_cons_succ] at hm2 hw2
        rw [List.insertIdx_succ_cons, List.set_cons_succ, List.insertIdx_succ_cons]
        exact WFChain.cons _ _ _ _ _ _ _ hlo hhi hc
          (ih hrest i m y₁ y₂ (by simpa using hile) hm1 hm2 hw1 hw2)

theorem chain_split {t h : Nat} :
    ∀ (ks₁ : List Int) (cs₁ : List BTreeNode) (lo hi : Option Int) (m : Int)
      (ks₂ : List Int) (cs₂ : List BTreeNode),
      WFChain t h lo hi (ks₁ ++ m :: ks₂) (cs₁ ++ cs₂) → cs₁.length = ks₁.length + 1 →
      WFChain t h lo (some m) ks₁ cs₁ ∧ WFChain t h (some m) hi ks₂ cs₂ ∧
        lbLe lo m ∧ ubGe hi m := by
  intro ks₁
  induction ks₁ with
  | nil =>
    intro cs₁ lo hi m ks₂ cs₂ hch hlen
    match cs₁, hlen with
    | [c], _ =>
      rw [List.singleton_append, List.nil_append] at hch
      cases hch with
      | cons _ _ _ _ _ _ _ hlo hhi hc hrest =>
        exact ⟨WFChain.single _ _ _ _ hc, hrest, hlo, hhi⟩
  | cons k ks₁ ih =>
    intro cs₁ lo hi m ks₂ cs₂ hch hlen
    match cs₁, hlen with
    | c :: cs₁, hlen =>
      rw [List.cons_append, List.cons_append] at hch
      cases hch with
      | cons _ _ _ _ _ _ _ hlo hhi hc hrest =>
        obtain ⟨ch₁, ch₂, hlom, hhim⟩ :=
          ih cs₁ (some k) hi m ks₂ cs₂ hrest (by simpa using hlen)
        have hkm : k ≤ m := hlom k rfl
        refine ⟨?_, ch₂, ?_, hhim⟩
        · refine WFChain.cons _ _ _ _ _ _ _ hlo ?_ hc ch₁
          intro b hb
          rcases Option.mem_some_iff.mp hb with rfl
          exact hkm
        · intro a ha
          exact le_trans (hlo a ha) hkm

/-! ## Facts derived from well-formedness -/

theorem wf_t_eq {t : Nat} {rt : Bool} {h : Nat} {lo hi : Option Int} {nd : BTreeNode}
    (hwf : WF t rt h lo hi nd) : nd.t = t := by
  cases hwf <;> rfl

theorem wf_counts {t : Nat} {rt : Bool} {h : Nat} {lo hi : Option Int} {nd : BTreeNode}
    (hwf : WF t rt h lo hi nd) :
    nd.keys.length ≤ 2 * t - 1 ∧ (rt = false → t - 1 ≤ nd.keys.length) ∧
      (nd.is_leaf = false → nd.children.length = nd.keys.length + 1) ∧
      (nd.is_leaf = true → nd.children = []) := by
  cases hwf with
  | leaf rt ks lo hi hmin hmax hsort hbnd =>
    refine ⟨hmax, ?_, ?_, ?_⟩
    · intro hrt
      rcases hmin with h1 | h1
      · rw [hrt] at h1; cases h1
      · exact h1
    · intro hlf; cases hlf
    · intro _; rfl
  | node rt h ks cs lo hi hmin hmax hch =>
    refine ⟨hmax, ?_, ?_, ?_⟩
    · intro hrt
      rcases hmin with h1 | h1
      · rw [hrt] at h1; cases h1
      · exact h1
    · intro _
      exact hch.length_eq
    · intro hlf; cases hlf

theorem wf_height {t : Nat} : ∀ (h : Nat) (rt : Bool) (lo hi : Option Int) (nd : BTreeNode),
    WF t rt h lo hi nd → nd.height = h := by
  intro h
  induction h using Nat.strong_induction_on with
  | _ h ih =>
    intro rt lo hi nd hwf
    cases hwf with
    | leaf rt ks lo hi hmin hmax hsort hbnd => exact height_nochild t true ks
    | node rt h' ks cs lo hi hmin hmax hch =>
      obtain ⟨c, cs', hi', hcs, hcwf⟩ := chain_head_wf hch
      subst hcs
      rw [height_cons]
      rw [ih h' (by omega) false lo hi' c hcwf]
      omega

theorem chain_traverse_props {t h : Nat}
    (IH : ∀ (rt : Bool) (lo hi : Option Int) (nd : BTreeNode), WF t rt h lo hi nd →
      List.Chain' (· ≤ ·) nd.traverse ∧ ∀ x ∈ nd.traverse, inBnd lo hi x) :
    ∀ (ks : List Int) (cs : List BTreeNode) (lo hi : Option Int),
      WFChain t h lo hi ks cs →
      List.Chain' (· ≤ ·) (BTreeNode.traverseGo ks cs) ∧
        ∀ x ∈ BTreeNode.traverseGo ks cs, inBnd lo hi x := by
  intro ks
  induction ks with
  | nil =>
    intro cs lo hi hch
    cases hch with
    | single _ _ _ c hc =>
      rw [traverseGo_nil_cons]
      exact IH false lo hi c hc
  | cons k ks ih =>
    intro cs lo hi hch
    cases hch with
    | cons _ _ _ _ _ c cs' hlo hhi hc hrest =>
      rw [traverseGo_cons_cons]
      obtain ⟨hs1, hb1⟩ := IH false lo (some k) c hc
      obtain ⟨hs2, hb2⟩ := ih cs' (some k) hi hrest
      constructor
      · rw [List.chain'_append]
        refine ⟨hs1, ?_, ?_⟩
        · rw [List.chain'_cons']
          refine ⟨?_, hs2⟩
          intro y hy
          exact (hb2 y (List.mem_of_mem_head? hy)).1 k rfl
        · intro x hx y hy
          have hxm : x ∈ c.traverse := List.mem_of_getLast?_eq_some hx
          have hyk : y = k := by
            have := hy
            simp only [List.head?_cons, Option.mem_def, Option.some.injEq] at this
            omega
          subst hyk
          exact (hb1 x hxm).2 y rfl
      · intro x hx
        rcases List.mem_append.mp hx with h1 | h1
        · obtain ⟨hxlo, hxhi⟩ := hb1 x h1
          refine ⟨hxlo, ?_⟩
          intro b hb
          exact le_trans (hxhi k rfl) (hhi b hb)
        · rcases List.mem_cons.mp h1 with rfl | h2
          · exact ⟨hlo, hhi⟩
          · obtain ⟨hxlo, hxhi⟩ := hb2 x h2
            refine ⟨?_, hxhi⟩
            intro a ha
            exact le_trans (hlo a ha) (hxlo k rfl)

theorem wf_traverse_props {t : Nat} : ∀ (h : Nat) (rt : Bool) (lo hi : Option Int)
    (nd : BTreeNode), WF t rt h lo hi nd →
    List.Chain' (· ≤ ·) nd.traverse ∧ ∀ x ∈ nd.traverse, inBnd lo hi x := by
  intro h
  induction h using Nat.strong_induction_on with
  | _ h ih =>
    intro rt lo hi nd hwf
    cases hwf with
    | leaf rt ks lo hi hmin hmax hsort hbnd =>
      rw [traverse_leaf]
      exact ⟨hsort, hbnd⟩
    | node rt h' ks cs lo hi hmin hmax hch =>
      rw [traverse_node]
      exact chain_traverse_props (fun rt lo hi nd hwf => ih h' (by omega) rt lo hi nd hwf)
        ks cs lo hi hch

/-! ## Traversal sequence manipulation -/

theorem traverseGo_append_split :
    ∀ (ks₁ : List Int) (cs₁ : List BTreeNode) (m : Int) (ks₂ : List Int)
      (cs₂ : List BTreeNode), cs₁.length = ks₁.length + 1 →
      BTreeNode.traverseGo (ks₁ ++ m :: ks₂) (cs₁ ++ cs₂)
        = BTreeNode.traverseGo ks₁ cs₁ ++ m :: BTreeNode.traverseGo ks₂ cs₂ := by
  intro ks₁
  induction ks₁ with
  | nil =>
    intro cs₁ m ks₂ cs₂ hlen
    match cs₁, hlen with
    | [c], _ =>
      rw [List.singleton_append, List.nil_append, traverseGo_cons_cons, traverseGo_nil_cons]
  | cons k ks₁ ih =>
    intro cs₁ m ks₂ cs₂ hlen
    match cs₁, hlen with
    | c :: cs₁, hlen =>
      rw [List.cons_append, List.cons_append, traverseGo_cons_cons, traverseGo_cons_cons,
        ih cs₁ m ks₂ cs₂ (by simpa using hlen)]
      simp

theorem traverseGo_set_perm :
    ∀ (ks : List Int) (cs : List BTreeNode) (i : Nat) (y y' : BTreeNode) (x : Int),
      i ≤ ks.length → cs.get? i = some y →
      List.Perm (BTreeNode.traverse y') (x :: BTreeNode.traverse y) →
      List.Perm (BTreeNode.traverseGo ks (cs.set i y'))
        (x :: BTreeNode.traverseGo ks cs) := by
  intro ks
  induction ks with
  | nil =>
    intro cs i y y' x hile hy hperm
    have : i = 0 := by simpa using hile
    subst this
    match cs, hy with
    | c :: cs', hy =>
      have : c = y := by simpa using hy
      subst this
      rw [List.set_cons_zero, traverseGo_nil_cons, traverseGo_nil_cons]
      exact hperm
  | cons k ks ih =>
    intro cs i y y' x hile hy hperm
    cases i with
    | zero =>
      match cs, hy with
      | c :: cs', hy =>
        have : c = y := by simpa using hy
        subst this
        rw [List.set_cons_zero, traverseGo_cons_cons, traverseGo_cons_cons]
        exact hperm.append_right _
    | succ i =>
      match cs, hy with
      | c :: cs', hy =>
        rw [List.set_cons_succ, traverseGo_cons_cons, traverseGo_cons_cons]
        have hrec := ih cs' i y y' x (by simpa using hile) (by simpa using hy) hperm
        have step1 : List.Perm
            (BTreeNode.traverse c ++ k :: BTreeNode.traverseGo ks (cs'.set i y'))
            (BTreeNode.traverse c ++ k :: (x :: BTreeNode.traverseGo ks cs')) :=
          List.Perm.append_left _ (hrec.cons k)
        have step2 : List.Perm
            ((BTreeNode.traverse c ++ [k]) ++ x :: BTreeNode.traverseGo ks cs')
            (x :: ((BTreeNode.traverse c ++ [k]) ++ BTreeNode.traverseGo ks cs')) :=
          List.perm_middle
        have e1 : BTreeNode.traverse c ++ k :: (x :: BTreeNode.traverseGo ks cs')
            = (BTreeNode.traverse c ++ [k]) ++ x :: BTreeNode.traverseGo ks cs' := by simp
        have e2 : x :: ((BTreeNode.traverse c ++ [k]) ++ BTreeNode.traverseGo ks cs')
            = x :: (BTreeNode.traverse c ++ k :: BTreeNode.traverseGo ks cs') := by simp
        rw [e1] at step1
        rw [e2] at step2
        exact step1.trans step2

theorem traverseGo_splice_eq :
    ∀ (ks : List Int) (cs : List BTreeNode) (i : Nat) (y y₁ y₂ : BTreeNode) (m : Int),
      i ≤ ks.length → cs.get? i = some y →
      BTreeNode.traverse y₁ ++ m :: BTreeNode.traverse y₂ = BTreeNode.traverse y →
      BTreeNode.traverseGo (ks.insertIdx i m) ((cs.set i y₁).insertIdx (i + 1) y₂)
        = BTreeNode.traverseGo ks cs := by
  intro ks
  induction ks with
  | nil =>
    intro cs i y y₁ y₂ m hile hy hsplit
    have : i = 0 := by simpa using hile
    subst this
    match cs, hy with
    | c :: cs', hy =>
      have : c = y := by simpa using hy
      subst this
      simp only [List.insertIdx_zero, List.set_cons_zero, List.insertIdx_succ_cons]
      rw [traverseGo_cons_cons, traverseGo_nil_cons, traverseGo_nil_cons]
      exact hsplit
  | cons k ks ih =>
    intro cs i y y₁ y₂ m hile hy hsplit
    cases i with
    | zero =>
      match cs, hy with
      | c :: cs', hy =>
        have : c = y := by simpa using hy
        subst this
        simp only [List.insertIdx_zero, List.set_cons_zero, List.insertIdx_succ_cons]
        rw [traverseGo_cons_cons, traverseGo_cons_cons, traverseGo_cons_cons, ← hsplit]
        simp
    | succ i =>
      match cs, hy with
      | c :: cs', hy =>
        simp only [List.insertIdx_succ_cons, List.set_cons_succ]
        rw [traverseGo_cons_cons, traverseGo_cons_cons,
          ih cs' i y y₁ y₂ m (by simpa using hile) (by simpa using hy) hsplit]

/-! ## Leaf insertion -/

theorem insFromRight_perm (k : Int) : ∀ l : List Int,
    List.Perm (insFromRight k l) (k :: l) := by
  intro l
  induction l with
  | nil => simp [insFromRight]
  | cons x xs ih =>
    rw [insFromRight]
    by_cases h : k < x
    · rw [if_pos h]
      exact (ih.cons x).trans (List.Perm.swap _ _ _)
    · rw [if_neg h]

theorem leafInsert_perm (ks : List Int) (k : Int) :
    List.Perm (leafInsert ks k) (k :: ks) := by
  rw [leafInsert]
  exact ((List.reverse_perm _).trans (insFromRight_perm k ks.reverse)).trans
    ((List.reverse_perm ks).cons k)

theorem insFromRight_head? (k : Int) (l : List Int) :
    (insFromRight k l).head? = some k ∨ (insFromRight k l).head? = l.head? := by
  cases l with
  | nil => left; rfl
  | cons x xs =>
    rw [insFromRight]
    by_cases h : k < x
    · right; rw [if_pos h]; rfl
    · left; rw [if_neg h]; rfl

theorem insFromRight_chain (k : Int) :
    ∀ l : List Int, List.Chain' (fun a b => b ≤ a) l →
      List.Chain' (fun a b => b ≤ a) (insFromRight k l) := by
  intro l
  induction l with
  | nil => intro _; simp [insFromRight]
  | cons x xs ih =>
    intro hch
    rw [List.chain'_cons'] at hch
    obtain ⟨hhead, htail⟩ := hch
    rw [insFromRight]
    by_cases h : k < x
    · rw [if_pos h]
      rw [List.chain'_cons']
      refine ⟨?_, ih htail⟩
      intro y hy
      rcases insFromRight_head? k xs with h2 | h2
      · rw [h2] at hy
        have hyk : k = y := by simpa using hy
        subst hyk
        exact le_of_lt h
      · rw [h2] at hy
        exact hhead y hy
    · rw [if_neg h]
      rw [List.chain'_cons']
      refine ⟨?_, ?_⟩
      · intro y hy
        have hyx : x = y := by simpa using hy
        subst hyx
        exact le_of_not_lt h
      · rw [List.chain'_cons']
        exact ⟨hhead, htail⟩

theorem leafInsert_sorted (ks : List Int) (k : Int) (hs : List.Chain' (· ≤ ·) ks) :
    List.Chain' (· ≤ ·) (leafInsert ks k) := by
  rw [leafInsert, List.chain'_reverse]
  have h1 : List.Chain' (fun a b => b ≤ a) ks.reverse := by
    rw [List.chain'_reverse]
    simpa [flip] using hs
  have h2 := insFromRight_chain k ks.reverse h1
  simpa [flip] using h2

theorem leafInsert_length (ks : List Int) (k : Int) :
    (leafInsert ks k).length = ks.length + 1 := by
  have := (leafInsert_perm ks k).length_eq
  simpa using this

/-! ## The split lemma: a full node yields two well-formed halves -/

theorem keys_decomp (ks : List Int) (t : Nat) (ht : 2 ≤ t)
    (hfull : ks.length = 2 * t - 1) :
    ks.take (t - 1) ++ ks.getD (t - 1) 0 :: ks.drop t = ks := by
  have h1 : t - 1 < ks.length := by omega
  have h2 : ks.drop (t - 1) = ks[t - 1] :: ks.drop t := by
    have := List.drop_eq_getElem_cons h1
    have he : t - 1 + 1 = t := by omega
    rw [he] at this
    exact this
  rw [List.getD_eq_getElem ks 0 h1, ← h2, List.take_append_drop]

theorem split_pieces {t : Nat} (ht : 2 ≤ t) {rt : Bool} {h : Nat} {lo hi : Option Int}
    {y : BTreeNode} (hwf : WF t rt h lo hi y) (hfull : y.keys.length = 2 * t - 1) :
    WF t false h lo (some (y.keys.getD (t - 1) 0)) (splitYtrunc t y) ∧
    WF t false h (some (y.keys.getD (t - 1) 0)) hi (splitZ t y) ∧
    inBnd lo hi (y.keys.getD (t - 1) 0) ∧
    BTreeNode.traverse (splitYtrunc t y)
        ++ (y.keys.getD (t - 1) 0) :: BTreeNode.traverse (splitZ t y)
      = BTreeNode.traverse y ∧
    (splitYtrunc t y).keys.length = t - 1 ∧ (splitZ t y).keys.length = t - 1 := by
  cases hwf with
  | leaf rt ks lo hi hmin hmax hsort hbnd =>
    simp only [BTreeNode.keys] at hfull ⊢
    have hm_lt : t - 1 < ks.length := by omega
    set m := ks.getD (t - 1) 0 with hm
    have hdec := keys_decomp ks t ht hfull
    have hdrop_len : (ks.drop t).length = t - 1 := by
      rw [List.length_drop]; omega
    have hzkeys : (ks.drop t).take (t - 1) = ks.drop t :=
      List.take_of_length_le (by omega)
    have htake_len : (ks.take (t - 1)).length = t - 1 := by
      rw [List.length_take]; omega
    have hyt : splitYtrunc t (BTreeNode.mk t true ks [])
        = BTreeNode.mk t true (ks.take (t - 1)) [] := by
      simp [splitYtrunc, BTreeNode.t, BTreeNode.is_leaf, BTreeNode.keys, BTreeNode.children]
    have hz : splitZ t (BTreeNode.mk t true ks [])
        = BTreeNode.mk t true (ks.drop t) [] := by
      simp [splitZ, BTreeNode.t, BTreeNode.is_leaf, BTreeNode.keys, BTreeNode.children, hzkeys]
    have hpw : List.Pairwise (· ≤ ·) ks := List.chain'_iff_pairwise.mp hsort
    have hpw' : List.Pairwise (· ≤ ·) (ks.take (t - 1) ++ m :: ks.drop t) := by
      rw [hdec]; exact hpw
    rw [List.pairwise_append] at hpw'
    obtain ⟨hpwA, hpwB, hAB⟩ := hpw'
    rw [List.pairwise_cons] at hpwB
    obtain ⟨hmB, hpwB'⟩ := hpwB
    have hm_mem : m ∈ ks := by
      rw [hm, List.getD_eq_getElem ks 0 hm_lt]
      exact List.getElem_mem hm_lt
    refine ⟨?_, ?_, hbnd m hm_mem, ?_, ?_, ?_⟩
    · rw [hyt]
      refine WF.leaf false (ks.take (t - 1)) lo (some m) (Or.inr (by omega))
        (by omega) (hsort.sublist (List.take_sublist _ _)) ?_
      intro x hx
      have hx_ks : x ∈ ks := List.mem_of_mem_take hx
      refine ⟨(hbnd x hx_ks).1, ?_⟩
      intro b hb
      rcases Option.mem_some_iff.mp hb with rfl
      exact hAB x hx m (List.mem_cons_self _ _)
    · rw [hz]
      refine WF.leaf false (ks.drop t) (some m) hi (Or.inr (by omega))
        (by omega) (hsort.sublist (List.drop_sublist _ _)) ?_
      intro x hx
      have hx_ks : x ∈ ks := List.mem_of_mem_drop hx
      refine ⟨?_, (hbnd x hx_ks).2⟩
      intro a ha
      rcases Option.mem_some_iff.mp ha with rfl
      exact hmB x hx
    · rw [hyt, hz, traverse_leaf, traverse_leaf, traverse_leaf]
      exact hdec
    · rw [hyt]; simpa [BTreeNode.keys] using htake_len
    · rw [hz]; simpa [BTreeNode.keys] using hdrop_len
  | node rt h' ks cs lo hi hmin hmax hch =>
    simp only [BTreeNode.keys] at hfull ⊢
    have hcs_len : cs.length = 2 * t := by
      rw [hch.length_eq]; omega
    have hm_lt : t - 1 < ks.length := by omega
    set m := ks.getD (t - 1) 0 with hm
    have hdec := keys_decomp ks t ht hfull
    have hzkeys : (ks.drop t).take (t - 1) = ks.drop t :=
      List.take_of_length_le (by rw [List.length_drop]; omega)
    have hzcs : (cs.drop t).take t = cs.drop t :=
      List.take_of_length_le (by rw [List.length_drop]; omega)
    have hyt : splitYtrunc t (BTreeNode.mk t false ks cs)
        = BTreeNode.mk t false (ks.take (t - 1)) (cs.take t) := by
      simp [splitYtrunc, BTreeNode.t, BTreeNode.is_leaf, BTreeNode.keys, BTreeNode.children]
    have hz : splitZ t (BTreeNode.mk t false ks cs)
        = BTreeNode.mk t false (ks.drop t) (cs.drop t) := by
      simp [splitZ, BTreeNode.t, BTreeNode.is_leaf, BTreeNode.keys, BTreeNode.children,
        hzkeys, hzcs]
    have hch' : WFChain t h' lo hi (ks.take (t - 1) ++ m :: ks.drop t)
        (cs.take t ++ cs.drop t) := by
      rw [hdec, List.take_append_drop]
      exact hch
    have hlen1 : (cs.take t).length = (ks.take (t - 1)).length + 1 := by
      rw [List.length_take, List.length_take]
      omega
    obtain ⟨ch1, ch2, hlom, hhim⟩ := chain_split _ _ lo hi m _ _ hch' hlen1
    refine ⟨?_, ?_, ⟨hlom, hhim⟩, ?_, ?_, ?_⟩
    · rw [hyt]
      exact WF.node false h' _ _ lo (some m)
        (Or.inr (by rw [List.length_take]; omega))
        (by rw [List.length_take]; omega) ch1
    · rw [hz]
      exact WF.node false h' _ _ (some m) hi
        (Or.inr (by rw [List.length_drop]; omega))
        (by rw [List.length_drop]; omega) ch2
    · rw [hyt, hz, traverse_node, traverse_node, traverse_node]
      rw [← traverseGo_append_split _ _ m _ _ hlen1]
      rw [hdec, List.take_append_drop]
    · rw [hyt]; simp only [BTreeNode.keys]; rw [List.length_take]; omega
    · rw [hz]; simp only [BTreeNode.keys]; rw [List.length_drop]; omega

/-! ## Main preservation lemma for `insert_non_full` -/

theorem insert_non_full_ok {t : Nat} (ht : 2 ≤ t) :
    ∀ (h : Nat) (rt : Bool) (lo hi : Option Int) (nd : BTreeNode) (k : Int),
      WF t rt h lo hi nd → nd.keys.length < 2 * t - 1 → inBnd lo hi k →
      WF t rt h lo hi (nd.insert_non_full k) ∧
      List.Perm (nd.insert_non_full k).traverse (k :: nd.traverse) ∧
      (nd.insert_non_full k).keys.length ≤ nd.keys.length + 1 := by
  intro h
  induction h using Nat.strong_induction_on with
  | _ h ih =>
    intro rt lo hi nd k hwf hnf hbk
    cases hwf with
    | leaf rt ks lo hi hmin hmax hsort hbnd =>
      simp only [keys_mk] at hnf
      rw [insert_non_full_leaf]
      refine ⟨?_, ?_, ?_⟩
      · refine WF.leaf rt _ lo hi ?_ ?_ (leafInsert_sorted ks k hsort) ?_
        · rcases hmin with h1 | h1
          · exact Or.inl h1
          · refine Or.inr ?_
            rw [leafInsert_length]
            omega
        · rw [leafInsert_length]
          omega
        · intro x hx
          have hx' : x ∈ k :: ks := (leafInsert_perm ks k).mem_iff.mp hx
          rcases List.mem_cons.mp hx' with rfl | h2
          · exact hbk
          · exact hbnd x h2
      · rw [traverse_leaf, traverse_leaf]
        exact leafInsert_perm ks k
      · simp only [keys_mk]
        rw [leafInsert_length]
    | node rt h' ks cs lo hi hmin hmax hch =>
      simp only [keys_mk] at hnf ⊢
      have hi1_le : descendIdx ks k ≤ ks.length := descendIdx_le ks k
      have hcs_len : cs.length = ks.length + 1 := hch.length_eq
      obtain ⟨y, hy, hywf⟩ := chain_view hch (descendIdx ks k) hi1_le
      have hklo : lbLe (loB lo ks (descendIdx ks k)) k := by
        rw [loB]
        by_cases h0 : descendIdx ks k = 0
        · rw [if_pos h0]; exact hbk.1
        · rw [if_neg h0]
          intro a ha
          rcases Option.mem_some_iff.mp ha with rfl
          exact descendIdx_pred_le ks k (by omega)
      have hkhi : ubGe (hiB hi ks (descendIdx ks k)) k := by
        rw [hiB]
        by_cases hL : descendIdx ks k = ks.length
        · rw [if_pos hL]; exact hbk.2
        · rw [if_neg hL]
          intro b hb
          rcases Option.mem_some_iff.mp hb with rfl
          exact le_of_lt (descendIdx_lt_getD ks k (by omega))
      have hy_le : y.keys.length ≤ 2 * t - 1 := (wf_counts hywf).1
      by_cases hyfull : y.keys.length = 2 * t - 1
      · -- the child is full and is split first
        obtain ⟨hwfy1, hwfz, hmbnd, htravsplit, hy1len, hzlen⟩ :=
          split_pieces ht hywf hyfull
        have hsc := split_child_eq t false ks cs (descendIdx ks k) y hy
        have hkey_at : (ks.insertIdx (descendIdx ks k) (y.keys.getD (t - 1) 0)).getD
            (descendIdx ks k) 0 = y.keys.getD (t - 1) 0 :=
          getD_insertIdx_self ks (descendIdx ks k) _ 0 hi1_le
        have hks'_len : (ks.insertIdx (descendIdx ks k) (y.keys.getD (t - 1) 0)).length
            = ks.length + 1 := List.length_insertIdx _ _ hi1_le
        have hget_y1 : ((cs.set (descendIdx ks k) (splitYtrunc t y)).insertIdx
            (descendIdx ks k + 1) (splitZ t y)).get? (descendIdx ks k)
            = some (splitYtrunc t y) := by
          rw [get?_insertIdx_lt _ _ _ _ (Nat.lt_succ_self _)]
          exact get?_set_self cs _ _ (by omega)
        have hget_z : ((cs.set (descendIdx ks k) (splitYtrunc t y)).insertIdx
            (descendIdx ks k + 1) (splitZ t y)).get? (descendIdx ks k + 1)
            = some (splitZ t y) := by
          apply get?_insertIdx_self
          rw [List.length_set]
          omega
        by_cases hmk : y.keys.getD (t - 1) 0 < k
        · -- descend into the new right sibling z
          have hjeq : (if (BTreeNode.split_child (.mk t false ks cs)
                (descendIdx ks k)).keys.getD (descendIdx ks k) 0 < k
              then descendIdx ks k + 1 else descendIdx ks k) = descendIdx ks k + 1 := by
            rw [hsc, keys_mk, hkey_at]
            exact if_pos hmk
          have hzlo : lbLe (some (y.keys.getD (t - 1) 0)) k := by
            intro a ha
            rcases Option.mem_some_iff.mp ha with rfl
            exact le_of_lt hmk
          obtain ⟨hwfz', hpermz', hlenz'⟩ := ih h' (by omega) false _ _ (splitZ t y) k hwfz
            (by omega) ⟨hzlo, hkhi⟩
          rw [insert_non_full_full t ks cs k y (splitZ t y) hy hyfull
            (by rw [hjeq, hsc, children_mk]; exact hget_z)]
          rw [hjeq, hsc]
          simp only [BTreeNode.setChild, keys_mk, children_mk]
          rw [set_insertIdx_self]
          refine ⟨?_, ?_, ?_⟩
          · refine WF.node rt h' _ _ lo hi ?_ ?_
              (chain_splice hch (descendIdx ks k) _ _ _ hi1_le hmbnd.1 hmbnd.2 hwfy1 hwfz')
            · rcases hmin with h1 | h1
              · exact Or.inl h1
              · refine Or.inr ?_
                rw [hks'_len]
                omega
            · rw [hks'_len]
              omega
          · rw [traverse_node, traverse_node]
            have hstep1 := traverseGo_set_perm
              (ks.insertIdx (descendIdx ks k) (y.keys.getD (t - 1) 0))
              ((cs.set (descendIdx ks k) (splitYtrunc t y)).insertIdx
                (descendIdx ks k + 1) (splitZ t y))
              (descendIdx ks k + 1) (splitZ t y) _ k (by omega) hget_z hpermz'
            rw [set_insertIdx_self] at hstep1
            have hstep2 := traverseGo_splice_eq ks cs (descendIdx ks k) y
              (splitYtrunc t y) (splitZ t y) (y.keys.getD (t - 1) 0) hi1_le hy htravsplit
            rw [hstep2] at hstep1
            exact hstep1
          · rw [hks'_len]
        · -- descend into the truncated left half of y
          have hjeq : (if (BTreeNode.split_child (.mk t false ks cs)
                (descendIdx ks k)).keys.getD (descendIdx ks k) 0 < k
              then descendIdx ks k + 1 else descendIdx ks k) = descendIdx ks k := by
            rw [hsc, keys_mk, hkey_at]
            exact if_neg hmk
          have hy1hi : ubGe (some (y.keys.getD (t - 1) 0)) k := by
            intro b hb
            rcases Option.mem_some_iff.mp hb with rfl
            exact le_of_not_lt hmk
          obtain ⟨hwfy1', hpermy1', hleny1'⟩ := ih h' (by omega) false _ _ (splitYtrunc t y)
            k hwfy1 (by omega) ⟨hklo, hy1hi⟩
          rw [insert_non_full_full t ks cs k y (splitYtrunc t y) hy hyfull
            (by rw [hjeq, hsc, children_mk]; exact hget_y1)]
          rw [hjeq, hsc]
          simp only [BTreeNode.setChild, keys_mk, children_mk]
          rw [set_insertIdx_comm _ _ _ _ _ (Nat.lt_succ_self _), List.set_set]
          refine ⟨?_, ?_, ?_⟩
          · refine WF.node rt h' _ _ lo hi ?_ ?_
              (chain_splice hch (descendIdx ks k) _ _ _ hi1_le hmbnd.1 hmbnd.2 hwfy1' hwfz)
            · rcases hmin with h1 | h1
              · exact Or.inl h1
              · refine Or.inr ?_
                rw [hks'_len]
                omega
            · rw [hks'_len]
              omega
          · rw [traverse_node, traverse_node]
            have hstep1 := traverseGo_set_perm
              (ks.insertIdx (descendIdx ks k) (y.keys.getD (t - 1) 0))
              ((cs.set (descendIdx ks k) (splitYtrunc t y)).insertIdx
                (descendIdx ks k + 1) (splitZ t y))
              (descendIdx ks k) (splitYtrunc t y) _ k (by omega) hget_y1 hpermy1'
            rw [set_insertIdx_comm _ _ _ _ _ (Nat.lt_succ_self _), List.set_set] at hstep1
            have hstep2 := traverseGo_splice_eq ks cs (descendIdx ks k) y
              (splitYtrunc t y) (splitZ t y) (y.keys.getD (t - 1) 0) hi1_le hy htravsplit
            rw [hstep2] at hstep1
            exact hstep1
          · rw [hks'_len]
      · -- the child is not full: recurse directly
        rw [insert_non_full_notfull t ks cs k y hy hyfull]
        obtain ⟨hwfy', hpermy', hleny'⟩ :=
          ih h' (by omega) false _ _ y k hywf (by omega) ⟨hklo, hkhi⟩
        refine ⟨?_, ?_, ?_⟩
        · exact WF.node rt h' ks _ lo hi hmin hmax
            (chain_set hch (descendIdx ks k) _ hi1_le hwfy')
        · rw [traverse_node, traverse_node]
          exact traverseGo_set_perm ks cs (descendIdx ks k) y _ k hi1_le hy hpermy'
        · simp only [keys_mk]
          omega

/-! ## Tree-level insertion -/

theorem lbLe_none (x : Int) : lbLe none x := by
  intro a ha
  cases ha

theorem ubGe_none (x : Int) : ubGe none x := by
  intro a ha
  cases ha

theorem inBnd_none (x : Int) : inBnd none none x := ⟨lbLe_none x, ubGe_none x⟩

theorem perm_cons_middle (A B : List Int) (m k : Int) :
    List.Perm (A ++ m :: k :: B) (k :: (A ++ m :: B)) := by
  have : List.Perm ((A ++ [m]) ++ k :: B) (k :: ((A ++ [m]) ++ B)) := List.perm_middle
  simpa using this

theorem insert_t (tr : BTree) (k : Int) : (tr.insert k).t = tr.t := by
  rcases tr with ⟨root, t⟩
  cases root with
  | none => rfl
  | some r =>
    rw [BTree.insert]
    simp only []
    split
    · split
      · rfl
      · rfl
    · rfl

theorem tree_insert_ok (tr : BTree) (k : Int) (hwf : TreeWF tr) :
    TreeWF (tr.insert k) ∧
    List.Perm (tr.insert k).traverse (k :: tr.traverse) ∧
    (tr.root = none → (tr.insert k).height = 1) ∧
    (∀ r, tr.root = some r → ¬ r.keys.length = 2 * tr.t - 1 →
      (tr.insert k).height = tr.height) ∧
    (∀ r, tr.root = some r → r.keys.length = 2 * tr.t - 1 →
      (tr.insert k).height = tr.height + 1) := by
  obtain ⟨ht, hroot⟩ := hwf
  rcases tr with ⟨root, t⟩
  simp only [BTree.t] at ht ⊢
  cases root with
  | none =>
    rw [tree_insert_empty]
    refine ⟨⟨ht, Or.inr ⟨1, _, rfl, ?_⟩⟩, ?_, ?_, ?_, ?_⟩
    · show WF t true 1 none none (BTreeNode.mk t true [k] [])
      exact WF.leaf true [k] none none (Or.inl rfl)
        (by simp only [List.length_singleton]; omega)
        (List.chain'_singleton k) (fun x hx => by
          rcases List.mem_singleton.mp hx with rfl
          exact inBnd_none x)
    · show List.Perm (BTreeNode.traverse (BTreeNode.mk t true [k] [])) (k :: [])
      rw [traverse_leaf]
    · intro _
      show (BTreeNode.mk t true [k] []).height = 1
      exact height_nochild t true [k]
    · intro r hr
      cases hr
    · intro r hr
      cases hr
  | some r =>
    rcases hroot with hnone | ⟨hh, r', hr', hwfr⟩
    · cases hnone
    · simp only [BTree.root] at hr'
      rcases Option.some_inj.mp hr' with rfl
      simp only [BTree.root, BTree.t] at hwfr ⊢
      have hr_le : r.keys.length ≤ 2 * t - 1 := (wf_counts hwfr).1
      have hr_height : r.height = hh := wf_height hh true none none r hwfr
      by_cases hfull : r.keys.length = 2 * t - 1
      · -- root split
        obtain ⟨hwfy1, hwfz, _, htravsplit, hy1len, hzlen⟩ :=
          split_pieces ht hwfr hfull
        have hs1 : BTreeNode.split_child (.mk t false [] [r]) 0
            = .mk t false [r.keys.getD (t - 1) 0] [splitYtrunc t r, splitZ t r] := by
          rw [split_child_eq t false [] [r] 0 r rfl]
          simp only [List.insertIdx_zero, List.set_cons_zero, List.insertIdx_succ_cons]
        by_cases hmk : r.keys.getD (t - 1) 0 < k
        · -- new key goes to the right half
          have hzlo : lbLe (some (r.keys.getD (t - 1) 0)) k := by
            intro a ha
            rcases Option.mem_some_iff.mp ha with rfl
            exact le_of_lt hmk
          obtain ⟨hwfz', hpermz', _⟩ := insert_non_full_ok ht hh false _ _ (splitZ t r) k
            hwfz (by omega) ⟨hzlo, ubGe_none k⟩
          have hieq : (if (BTreeNode.split_child (.mk t false [] [r]) 0).keys.getD 0 0 < k
              then 1 else 0) = 1 := by
            rw [hs1, keys_mk]
            simp only [List.getD_cons_zero]
            exact if_pos hmk
          rw [tree_insert_full t r k (splitZ t r) hfull
            (by rw [hieq, hs1, children_mk]; rfl)]
          rw [hieq, hs1]
          simp only [BTreeNode.setChild, keys_mk, children_mk, List.set_cons_succ,
            List.set_cons_zero]
          refine ⟨⟨ht, Or.inr ⟨hh + 1, _, rfl, ?_⟩⟩, ?_, ?_, ?_, ?_⟩
          · show WF t true (hh + 1) none none _
            refine WF.node true hh _ _ none none (Or.inl rfl)
              (by simp only [List.length_singleton]; omega) ?_
            exact WFChain.cons _ _ _ _ _ _ _ (lbLe_none _) (ubGe_none _) hwfy1
              (WFChain.single _ _ _ _ hwfz')
          · show List.Perm (BTreeNode.traverse (BTreeNode.mk t false
                [r.keys.getD (t - 1) 0] [splitYtrunc t r, (splitZ t r).insert_non_full k]))
              (k :: r.traverse)
            rw [traverse_node, traverseGo_cons_cons, traverseGo_nil_cons]
            have e1 : List.Perm ((splitYtrunc t r).traverse ++ r.keys.getD (t - 1) 0 ::
                ((splitZ t r).insert_non_full k).traverse)
                ((splitYtrunc t r).traverse ++ r.keys.getD (t - 1) 0 ::
                  (k :: (splitZ t r).traverse)) :=
              List.Perm.append_left _ (hpermz'.cons _)
            have e2 := perm_cons_middle (splitYtrunc t r).traverse (splitZ t r).traverse
              (r.keys.getD (t - 1) 0) k
            rw [htravsplit] at e2
            exact e1.trans e2
          · intro hab
            cases hab
          · intro r0 hr0 hnf
            rcases Option.some_inj.mp hr0 with rfl
            exact absurd hfull hnf
          · intro r0 hr0 _
            rcases Option.some_inj.mp hr0 with rfl
            show (BTreeNode.mk t false [r.keys.getD (t - 1) 0]
              [splitYtrunc t r, (splitZ t r).insert_non_full k]).height = r.height + 1
            rw [height_cons, hr_height]
            rw [wf_height hh false _ _ _ hwfy1]
            omega
        · -- new key goes to the left half
          have hy1hi : ubGe (some (r.keys.getD (t - 1) 0)) k := by
            intro b hb
            rcases Option.mem_some_iff.mp hb with rfl
            exact le_of_not_lt hmk
          obtain ⟨hwfy1', hpermy1', _⟩ := insert_non_full_ok ht hh false _ _ (splitYtrunc t r)
            k hwfy1 (by omega) ⟨lbLe_none k, hy1hi⟩
          have hieq : (if (BTreeNode.split_child (.mk t false [] [r]) 0).keys.getD 0 0 < k
              then 1 else 0) = 0 := by
            rw [hs1, keys_mk]
            simp only [List.getD_cons_zero]
            exact if_neg hmk
          rw [tree_insert_full t r k (splitYtrunc t r) hfull
            (by rw [hieq, hs1, children_mk]; rfl)]
          rw [hieq, hs1]
          simp only [BTreeNode.setChild, keys_mk, children_mk, List.set_cons_zero]
          refine ⟨⟨ht, Or.inr ⟨hh + 1, _, rfl, ?_⟩⟩, ?_, ?_, ?_, ?_⟩
          · show WF t true (hh + 1) none none _
            refine WF.node true hh _ _ none none (Or.inl rfl)
              (by simp only [List.length_singleton]; omega) ?_
            exact WFChain.cons _ _ _ _ _ _ _ (lbLe_none _) (ubGe_none _) hwfy1'
              (WFChain.single _ _ _ _ hwfz)
          · show List.Perm (BTreeNode.traverse (BTreeNode.mk t false
                [r.keys.getD (t - 1) 0] [(splitYtrunc t r).insert_non_full k, splitZ t r]))
              (k :: r.traverse)
            rw [traverse_node, traverseGo_cons_cons, traverseGo_nil_cons]
            have e1 : List.Perm (((splitYtrunc t r).insert_non_full k).traverse
                ++ r.keys.getD (t - 1) 0 :: (splitZ t r).traverse)
                ((k :: (splitYtrunc t r).traverse) ++ r.keys.getD (t - 1) 0 ::
                  (splitZ t r).traverse) :=
              hpermy1'.append_right _
            rw [List.cons_append, htravsplit] at e1
            exact e1
          · intro hab
            cases hab
          · intro r0 hr0 hnf
            rcases Option.some_inj.mp hr0 with rfl
            exact absurd hfull hnf
          · intro r0 hr0 _
            rcases Option.some_inj.mp hr0 with rfl
            show (BTreeNode.mk t false [r.keys.getD (t - 1) 0]
              [(splitYtrunc t r).insert_non_full k, splitZ t r]).height = r.height + 1
            rw [height_cons, hr_height]
            rw [wf_height hh false _ _ _ hwfy1']
            omega
      · -- root not full: plain recursive insertion
        obtain ⟨hwfr', hpermr', _⟩ := insert_non_full_ok ht hh true none none r k hwfr
          (by omega) (inBnd_none k)
        rw [tree_insert_nonfull t r k hfull]
        refine ⟨⟨ht, Or.inr ⟨hh, _, rfl, hwfr'⟩⟩, ?_, ?_, ?_, ?_⟩
        · exact hpermr'
        · intro hab
          cases hab
        · intro r0 hr0 _
          rcases Option.some_inj.mp hr0 with rfl
          show (r.insert_non_full k).height = r.height
          rw [hr_height, wf_height hh true none none _ hwfr']
        · intro r0 hr0 hfull0
          rcases Option.some_inj.mp hr0 with rfl
          exact absurd hfull0 hfull

theorem reach_t {t : Nat} {tr : BTree} (h : Reachable t tr) : tr.t = t := by
  induction h with
  | empty => rfl
  | ins tr k _ ih => rw [insert_t, ih]

theorem reach_wf {t : Nat} (ht : 2 ≤ t) {tr : BTree} (h : Reachable t tr) : TreeWF tr := by
  induction h with
  | empty => exact ⟨ht, Or.inl rfl⟩
  | ins tr k _ ih => exact (tree_insert_ok tr k ih).1

/-! ## Search correctness -/

theorem sorted_getD_le (ks : List Int) (hs : List.Chain' (· ≤ ·) ks) (i j : Nat)
    (hij : i ≤ j) (hj : j < ks.length) : ks.getD i 0 ≤ ks.getD j 0 := by
  have hp := List.chain'_iff_pairwise.mp hs
  rcases Nat.eq_or_lt_of_le hij with rfl | hlt
  · exact le_refl _
  · rw [List.getD_eq_getElem ks 0 (by omega), List.getD_eq_getElem ks 0 hj]
    exact List.pairwise_iff_getElem.mp hp i j (by omega) hj hlt

theorem searchIdx_hit (ks : List Int) (k : Int) (hs : List.Chain' (· ≤ ·) ks)
    (hk : k ∈ ks) : searchIdx ks k < ks.length ∧ ks.getD (searchIdx ks k) 0 = k := by
  obtain ⟨p, hp, hpk⟩ := List.mem_iff_getElem.mp hk
  have hgp : ks.getD p 0 = k := by
    rw [List.getD_eq_getElem ks 0 hp]
    exact hpk
  have hip : searchIdx ks k ≤ p := by
    by_contra hcon
    have := searchIdx_lt_of_lt ks k p (by omega)
    omega
  have hlt : searchIdx ks k < ks.length := by omega
  refine ⟨hlt, ?_⟩
  have h1 : ¬ ks.getD (searchIdx ks k) 0 < k := searchIdx_not_lt ks k hlt
  have h2 : ks.getD (searchIdx ks k) 0 ≤ ks.getD p 0 := sorted_getD_le ks hs _ p hip hp
  omega

theorem traverseGo_mem_decomp :
    ∀ (ks : List Int) (cs : List BTreeNode) (k : Int),
      k ∈ BTreeNode.traverseGo ks cs →
      k ∈ ks ∨ ∃ i y, i ≤ ks.length ∧ cs.get? i = some y ∧ k ∈ y.traverse := by
  intro ks
  induction ks with
  | nil =>
    intro cs k hk
    cases cs with
    | nil => rw [traverseGo_nil_nil] at hk; cases hk
    | cons c cs' =>
      rw [traverseGo_nil_cons] at hk
      exact Or.inr ⟨0, c, Nat.le_refl 0, rfl, hk⟩
  | cons k' ks ih =>
    intro cs k hk
    cases cs with
    | nil =>
      rw [traverseGo_cons_nil] at hk
      rcases List.mem_cons.mp hk with rfl | h1
      · exact Or.inl (List.mem_cons_self _ _)
      · rcases ih [] k h1 with h2 | ⟨i, y, _, hget, _⟩
        · exact Or.inl (List.mem_cons_of_mem _ h2)
        · rw [List.get?_nil] at hget
          cases hget
    | cons c cs' =>
      rw [traverseGo_cons_cons] at hk
      rcases List.mem_append.mp hk with h1 | h1
      · exact Or.inr ⟨0, c, Nat.zero_le _, rfl, h1⟩
      · rcases List.mem_cons.mp h1 with rfl | h2
        · exact Or.inl (List.mem_cons_self _ _)
        · rcases ih cs' k h2 with h3 | ⟨i, y, hile, hget, hky⟩
          · exact Or.inl (List.mem_cons_of_mem _ h3)
          · exact Or.inr ⟨i + 1, y, by simpa using hile, by simpa using hget, hky⟩

theorem search_finds {t : Nat} : ∀ (h : Nat) (rt : Bool) (lo hi : Option Int)
    (nd : BTreeNode) (k : Int), WF t rt h lo hi nd → k ∈ nd.traverse →
    (nd.search k).isSome := by
  intro h
  induction h using Nat.strong_induction_on with
  | _ h ih =>
    intro rt lo hi nd k hwf hk
    cases hwf with
    | leaf rt ks lo hi hmin hmax hsort hbnd =>
      rw [traverse_leaf] at hk
      obtain ⟨h1, h2⟩ := searchIdx_hit ks k hsort hk
      rw [search_hit t true ks [] k h1 h2]
      rfl
    | node rt h' ks cs lo hi hmin hmax hch =>
      rw [traverse_node] at hk
      have hsort := hch.keys_sorted
      by_cases hhit : searchIdx ks k < ks.length ∧ ks.getD (searchIdx ks k) 0 = k
      · rw [search_hit t false ks cs k hhit.1 hhit.2]
        rfl
      · rcases traverseGo_mem_decomp ks cs k hk with hks | ⟨i, y, hile, hget, hky⟩
        · exact absurd (searchIdx_hit ks k hsort hks) hhit
        · -- the key sits in the subtree of child i; show i is the search index
          obtain ⟨y', hget', hywf⟩ := chain_view hch i hile
          have hyy : y' = y := by
            rw [hget] at hget'
            exact (Option.some_inj.mp hget').symm
          subst hyy
          have hkb := (wf_traverse_props h' false _ _ y' hywf).2 k hky
          have hsle := searchIdx_le ks k
          have hieq : i = searchIdx ks k := by
            by_contra hne
            rcases Nat.lt_or_ge i (searchIdx ks k) with hlt | hge
            · -- i < searchIdx: keys[i] < k but subtree gives k ≤ keys[i]
              have hib : hiB hi ks i = some (ks.getD i 0) := by
                rw [hiB, if_neg (by omega)]
              have h1 : k ≤ ks.getD i 0 := by
                have := hkb.2
                rw [hib] at this
                exact this _ rfl
              have h2 : ks.getD i 0 < k := searchIdx_lt_of_lt ks k i hlt
              omega
            · -- i > searchIdx: keys[i-1] ≥ keys[searchIdx] > k but k ≥ keys[i-1]
              have hgt : searchIdx ks k < i := by omega
              have hlb : loB lo ks i = some (ks.getD (i - 1) 0) := by
                rw [loB, if_neg (by omega)]
              have h1 : ks.getD (i - 1) 0 ≤ k := by
                have := hkb.1
                rw [hlb] at this
                exact this _ rfl
              have hsi_lt : searchIdx ks k < ks.length := by omega
              have h2 : ¬ ks.getD (searchIdx ks k) 0 < k := searchIdx_not_lt ks k hsi_lt
              have h3 : ks.getD (searchIdx ks k) 0 ≤ ks.getD (i - 1) 0 :=
                sorted_getD_le ks hsort _ _ (by omega) (by omega)
              have h4 : ¬ ks.getD (searchIdx ks k) 0 = k := by
                intro hkk
                exact hhit ⟨hsi_lt, hkk⟩
              omega
          rw [search_node_child t ks cs k y' hhit (hieq ▸ hget)]
          exact ih h' (by omega) false _ _ y' k hywf hky

theorem tree_search_finds (tr : BTree) (k : Int) (hwf : TreeWF tr)
    (hk : k ∈ tr.traverse) : tr.search k = true := by
  obtain ⟨ht, hroot⟩ := hwf
  rcases tr with ⟨root, t⟩
  cases root with
  | none =>
    rw [BTree.traverse] at hk
    simp only [BTree.root] at hk
    cases hk
  | some r =>
    rcases hroot with hnone | ⟨hh, r', hr', hwfr⟩
    · cases hnone
    · simp only [BTree.root] at hr'
      rcases Option.some_inj.mp hr' with rfl
      rw [BTree.traverse] at hk
      simp only [BTree.root] at hk
      have := search_finds hh true none none r k hwfr hk
      rw [BTree.search]
      simp only [BTree.root]
      rw [Option.isSome_iff_exists] at this
      obtain ⟨nd, hnd⟩ := this
      rw [hnd]
      rfl

/-! ## Inserting a list of keys -/

theorem insertAll_nil (tr : BTree) : insertAll tr [] = tr := rfl

theorem insertAll_cons (tr : BTree) (x : Int) (xs : List Int) :
    insertAll tr (x :: xs) = insertAll (tr.insert x) xs := rfl

theorem insertAll_wf (ks : List Int) : ∀ (tr : BTree), TreeWF tr →
    TreeWF (insertAll tr ks) := by
  induction ks with
  | nil => intro tr hwf; rw [insertAll_nil]; exact hwf
  | cons x xs ih =>
    intro tr hwf
    rw [insertAll_cons]
    exact ih _ (tree_insert_ok tr x hwf).1

theorem insertAll_mem (ks : List Int) : ∀ (tr : BTree) (k : Int), TreeWF tr →
    (k ∈ tr.traverse ∨ k ∈ ks) → k ∈ (insertAll tr ks).traverse := by
  induction ks with
  | nil =>
    intro tr k _ hk
    rw [insertAll_nil]
    rcases hk with h1 | h1
    · exact h1
    · cases h1
  | cons x xs ih =>
    intro tr k hwf hk
    rw [insertAll_cons]
    have hperm := (tree_insert_ok tr x hwf).2.1
    rcases hk with h1 | h1
    · refine ih _ k (tree_insert_ok tr x hwf).1 (Or.inl ?_)
      exact hperm.mem_iff.mpr (List.mem_cons_of_mem _ h1)
    · rcases List.mem_cons.mp h1 with hx | h2
      · subst hx
        refine ih _ k (tree_insert_ok tr k hwf).1 (Or.inl ?_)
        exact hperm.mem_iff.mpr (List.mem_cons_self _ _)
      · exact ih _ k (tree_insert_ok tr x hwf).1 (Or.inr h2)

/-! ## Frame properties of the instrumented search and traversal -/

theorem length_le_sizeOf {α : Type} [SizeOf α] (l : List α) : l.length ≤ sizeOf l := by
  induction l with
  | nil => simp
  | cons a l ih =>
    simp only [List.length_cons, List.cons.sizeOf_spec]
    omega

theorem searchM_hit (t : Nat) (lf : Bool) (ks : List Int) (cs : List BTreeNode) (k : Int)
    (h1 : searchIdx ks k < ks.length) (h2 : ks.getD (searchIdx ks k) 0 = k) :
    BTreeNode.searchM (.mk t lf ks cs) k
      = (some (.mk t lf ks cs), .mk t lf ks cs) := by
  rw [BTreeNode.searchM]
  exact if_pos ⟨h1, h2⟩

theorem searchM_leaf_miss (t : Nat) (ks : List Int) (cs : List BTreeNode) (k : Int)
    (h : ¬ (searchIdx ks k < ks.length ∧ ks.getD (searchIdx ks k) 0 = k)) :
    BTreeNode.searchM (.mk t true ks cs) k = (none, .mk t true ks cs) := by
  rw [BTreeNode.searchM]
  rw [if_neg h]
  simp

theorem searchM_node_child (t : Nat) (ks : List Int) (cs : List BTreeNode) (k : Int)
    (c : BTreeNode)
    (h : ¬ (searchIdx ks k < ks.length ∧ ks.getD (searchIdx ks k) 0 = k))
    (hc : cs.get? (searchIdx ks k) = some c) :
    BTreeNode.searchM (.mk t false ks cs) k
      = ((BTreeNode.searchM c k).1,
          .mk t false ks (cs.set (searchIdx ks k) (BTreeNode.searchM c k).2)) := by
  rw [BTreeNode.searchM]
  rw [if_neg h]
  simp only [Bool.false_eq_true, if_false]
  split
  · next heq => rw [hc] at heq; cases heq
  · next c' heq => rw [hc] at heq; cases heq; rfl

theorem searchM_node_nochild (t : Nat) (ks : List Int) (cs : List BTreeNode) (k : Int)
    (h : ¬ (searchIdx ks k < ks.length ∧ ks.getD (searchIdx ks k) 0 = k))
    (hc : cs.get? (searchIdx ks k) = none) :
    BTreeNode.searchM (.mk t false ks cs) k = (none, .mk t false ks cs) := by
  rw [BTreeNode.searchM]
  rw [if_neg h]
  simp only [Bool.false_eq_true, if_false]
  split
  · rfl
  · next c' heq => rw [hc] at heq; cases heq

theorem searchM_frame : ∀ (n : Nat) (nd : BTreeNode), sizeOf nd ≤ n → ∀ k : Int,
    BTreeNode.searchM nd k = (BTreeNode.search nd k, nd) := by
  intro n
  induction n using Nat.strong_induction_on with
  | _ n ih =>
    intro nd hsz k
    obtain ⟨t, lf, ks, cs⟩ := nd
    by_cases hhit : searchIdx ks k < ks.length ∧ ks.getD (searchIdx ks k) 0 = k
    · rw [searchM_hit t lf ks cs k hhit.1 hhit.2, search_hit t lf ks cs k hhit.1 hhit.2]
    · cases lf with
      | true =>
        rw [searchM_leaf_miss t ks cs k hhit, search_leaf_miss t ks cs k hhit]
      | false =>
        cases hc : cs.get? (searchIdx ks k) with
        | none =>
          rw [searchM_node_nochild t ks cs k hhit hc, search_node_nochild t ks cs k hhit hc]
        | some c =>
          have hszc : sizeOf c < sizeOf (BTreeNode.mk t false ks cs) := by
            have hmem : c ∈ cs := List.get?_mem hc
            have := List.sizeOf_lt_of_mem hmem
            simp only [BTreeNode.mk.sizeOf_spec]
            omega
          have hrec := ih (n - 1) (by omega) c (by omega) k
          rw [searchM_node_child t ks cs k c hhit hc, search_node_child t ks cs k c hhit hc,
            hrec]
          rw [set_get?_self cs _ c hc]

theorem traverseM_leaf (t : Nat) (ks : List Int) (cs : List BTreeNode) :
    BTreeNode.traverseM (.mk t true ks cs) = (ks, .mk t true ks cs) := by
  rw [BTreeNode.traverseM]
  simp

theorem traverseM_node (t : Nat) (ks : List Int) (cs : List BTreeNode) :
    BTreeNode.traverseM (.mk t false ks cs)
      = ((BTreeNode.traverseGoM ks cs).1, .mk t false ks (BTreeNode.traverseGoM ks cs).2) := by
  rw [BTreeNode.traverseM]
  simp

theorem traverseGoM_nil_nil : BTreeNode.traverseGoM [] [] = ([], []) := by
  rw [BTreeNode.traverseGoM]

theorem traverseGoM_nil_cons (c : BTreeNode) (cs : List BTreeNode) :
    BTreeNode.traverseGoM [] (c :: cs)
      = ((BTreeNode.traverseM c).1, (BTreeNode.traverseM c).2 :: cs) := by
  rw [BTreeNode.traverseGoM]

theorem traverseGoM_cons_nil (k : Int) (ks : List Int) :
    BTreeNode.traverseGoM (k :: ks) [] = (k :: (BTreeNode.traverseGoM ks []).1, []) := by
  rw [BTreeNode.traverseGoM]

theorem traverseGoM_cons_cons (k : Int) (ks : List Int) (c : BTreeNode)
    (cs : List BTreeNode) :
    BTreeNode.traverseGoM (k :: ks) (c :: cs)
      = ((BTreeNode.traverseM c).1 ++ k :: (BTreeNode.traverseGoM ks cs).1,
          (BTreeNode.traverseM c).2 :: (BTreeNode.traverseGoM ks cs).2) := by
  rw [BTreeNode.traverseGoM]

theorem traverseM_frame_all : ∀ n : Nat,
    (∀ nd : BTreeNode, sizeOf nd ≤ n → BTreeNode.traverseM nd = (nd.traverse, nd)) ∧
    (∀ (ks : List Int) (cs : List BTreeNode), sizeOf cs + ks.length ≤ n →
      BTreeNode.traverseGoM ks cs = (BTreeNode.traverseGo ks cs, cs)) := by
  intro n
  induction n using Nat.strong_induction_on with
  | _ n ih =>
    constructor
    · intro nd hsz
      obtain ⟨t, lf, ks, cs⟩ := nd
      cases lf with
      | true => rw [traverseM_leaf, traverse_leaf]
      | false =>
        have hm : sizeOf cs + ks.length ≤ n - 1 := by
          have h1 := length_le_sizeOf ks
          simp only [BTreeNode.mk.sizeOf_spec] at hsz
          omega
        have hn1 : 1 ≤ n := by
          simp only [BTreeNode.mk.sizeOf_spec] at hsz
          omega
        have hgo := (ih (n - 1) (by omega)).2 ks cs hm
        rw [traverseM_node, traverse_node, hgo]
    · intro ks cs hm
      cases ks with
      | nil =>
        cases cs with
        | nil => rw [traverseGoM_nil_nil, traverseGo_nil_nil]
        | cons c cs' =>
          have hc : sizeOf c ≤ n - 1 := by
            simp only [List.cons.sizeOf_spec] at hm
            have := one_le_sizeOf_list cs'
            omega
          have hn1 : 1 ≤ n := by
            simp only [List.cons.sizeOf_spec] at hm
            omega
          have htm := (ih (n - 1) (by omega)).1 c hc
          rw [traverseGoM_nil_cons, traverseGo_nil_cons, htm]
      | cons k ks' =>
        cases cs with
        | nil =>
          have hm' : sizeOf ([] : List BTreeNode) + ks'.length ≤ n - 1 := by
            simp only [List.length_cons] at hm
            omega
          have hn1 : 1 ≤ n := by
            have := one_le_sizeOf_list ([] : List BTreeNode)
            simp only [List.length_cons] at hm
            omega
          have hgo := (ih (n - 1) (by omega)).2 ks' [] hm'
          rw [traverseGoM_cons_nil, traverseGo_cons_nil, hgo]
        | cons c cs' =>
          have hszc : 1 + sizeOf c + sizeOf cs' = sizeOf (c :: cs') := by
            simp only [List.cons.sizeOf_spec]
          have hc : sizeOf c ≤ n - 1 := by
            have := one_le_sizeOf_list cs'
            simp only [List.length_cons] at hm
            omega
          have hm' : sizeOf cs' + ks'.length ≤ n - 1 := by
            simp only [List.length_cons] at hm
            omega
          have hn1 : 1 ≤ n := by
            simp only [List.length_cons] at hm
            omega
          have htm := (ih (n - 1) (by omega)).1 c hc
          have hgo := (ih (n - 1) (by omega)).2 ks' cs' hm'
          rw [traverseGoM_cons_cons, traverseGo_cons_cons, htm, hgo]

theorem tree_searchM_frame (tr : BTree) (k : Int) :
    tr.searchM k = (tr.search k, tr) := by
  rcases tr with ⟨root, t⟩
  cases root with
  | none => rfl
  | some r =>
    rw [BTree.searchM, BTree.search]
    simp only [BTree.root, BTree.t]
    rw [searchM_frame (sizeOf r) r (le_refl _) k]

theorem tree_traverseM_frame (tr : BTree) :
    tr.traverseM = (tr.traverse, tr) := by
  rcases tr with ⟨root, t⟩
  cases root with
  | none => rfl
  | some r =>
    rw [BTree.traverseM, BTree.traverse]
    simp only [BTree.root, BTree.t]
    rw [(traverseM_frame_all (sizeOf r)).1 r (le_refl _)]

/-! ## Per-node facts via `Subnode` -/

theorem wf_subnode {t : Nat} {r nd : BTreeNode} (hsub : Subnode nd r) :
    ∀ (rt : Bool) (h : Nat) (lo hi : Option Int), WF t rt h lo hi r →
    nd = r ∨ ∃ (h' : Nat) (lo' hi' : Option Int), WF t false h' lo' hi' nd := by
  induction hsub with
  | refl => intro rt h lo hi _; exact Or.inl rfl
  | step c p hc hs ih =>
    intro rt h lo hi hwf
    cases hwf with
    | leaf rt ks lo hi hmin hmax hsort hbnd =>
      simp only [children_mk] at hc
      cases hc
    | node rt h' ks cs lo hi hmin hmax hch =>
      simp only [children_mk] at hc
      obtain ⟨lo', hi', hcwf⟩ := chain_mem_wf hch c hc
      rcases ih false h' lo' hi' hcwf with rfl | ⟨h'', lo'', hi'', hwf''⟩
      · exact Or.inr ⟨h', lo', hi', hcwf⟩
      · exact Or.inr ⟨h'', lo'', hi'', hwf''⟩

theorem get?_some_getD (l : List Int) (i : Nat) (a : Int) (h : l.get? i = some a) :
    i < l.length ∧ l.getD i 0 = a := by
  induction l generalizing i with
  | nil => cases h
  | cons x xs ih =>
    cases i with
    | zero =>
      simp only [List.get?_cons_zero, Option.some.injEq] at h
      subst h
      exact ⟨by simp, rfl⟩
    | succ i =>
      simp only [List.get?_cons_succ] at h
      obtain ⟨h1, h2⟩ := ih i h
      exact ⟨by simpa using h1, by simpa using h2⟩

theorem get?_lt_length {α : Type} (l : List α) (i : Nat) (a : α)
    (h : l.get? i = some a) : i < l.length := by
  induction l generalizing i with
  | nil => cases h
  | cons x xs ih =>
    cases i with
    | zero => simp
    | succ i =>
      simp only [List.get?_cons_succ] at h
      simpa using ih i h

/-- Key separation around every child pointer, as claimed by the spec: the
subtree at `children[i]` holds only keys strictly below `keys[i]` and
strictly above `keys[i-1]`. -/
def StrictSep (r : BTreeNode) : Prop :=
  ∀ nd, Subnode nd r → nd.is_leaf = false →
    ∀ (i : Nat) (y : BTreeNode), nd.children.get? i = some y →
      ∀ x ∈ y.traverse,
        (∀ ki, nd.keys.get? i = some ki → x < ki) ∧
        (∀ j ki, i = j + 1 → nd.keys.get? j = some ki → ki < x)

/-- The separation that actually holds in the presence of duplicate keys:
the bracketing is inclusive on both sides. -/
def LaxSep (r : BTreeNode) : Prop :=
  ∀ nd, Subnode nd r → nd.is_leaf = false →
    ∀ (i : Nat) (y : BTreeNode), nd.children.get? i = some y →
      ∀ x ∈ y.traverse,
        (∀ ki, nd.keys.get? i = some ki → x ≤ ki) ∧
        (∀ j ki, i = j + 1 → nd.keys.get? j = some ki → ki ≤ x)

theorem wf_laxsep_node {t : Nat} {rt : Bool} {h : Nat} {lo hi : Option Int}
    {nd : BTreeNode} (hwf : WF t rt h lo hi nd) (hlf : nd.is_leaf = false)
    (i : Nat) (y : BTreeNode) (hy : nd.children.get? i = some y) :
    ∀ x ∈ y.traverse,
      (∀ ki, nd.keys.get? i = some ki → x ≤ ki) ∧
      (∀ j ki, i = j + 1 → nd.keys.get? j = some ki → ki ≤ x) := by
  cases hwf with
  | leaf rt ks lo hi hmin hmax hsort hbnd =>
    simp only [is_leaf_mk] at hlf
    cases hlf
  | node rt h' ks cs lo hi hmin hmax hch =>
    simp only [children_mk] at hy
    simp only [keys_mk]
    have hilt : i < cs.length := get?_lt_length cs i y hy
    have hile : i ≤ ks.length := by
      have := hch.length_eq
      omega
    obtain ⟨y', hy', hywf⟩ := chain_view hch i hile
    have hyy : y' = y := by
      rw [hy] at hy'
      exact (Option.some_inj.mp hy').symm
    subst hyy
    intro x hx
    have hxb := (wf_traverse_props h' false _ _ y' hywf).2 x hx
    constructor
    · intro ki hki
      obtain ⟨hki_lt, hki_eq⟩ := get?_some_getD ks i ki hki
      have hib : hiB hi ks i = some (ks.getD i 0) := by
        rw [hiB, if_neg (by omega)]
      have := hxb.2
      rw [hib] at this
      rw [← hki_eq]
      exact this _ rfl
    · intro j ki hij hki
      obtain ⟨hki_lt, hki_eq⟩ := get?_some_getD ks j ki hki
      have hlb : loB lo ks i = some (ks.getD (i - 1) 0) := by
        rw [loB, if_neg (by omega)]
      have := hxb.1
      rw [hlb] at this
      rw [← hki_eq]
      have hj : i - 1 = j := by omega
      rw [← hj]
      exact this _ rfl

theorem wf_laxsep {t : Nat} {rt : Bool} {h : Nat} {lo hi : Option Int} {r : BTreeNode}
    (hwf : WF t rt h lo hi r) : LaxSep r := by
  intro nd hsub hlf i y hy x hx
  rcases wf_subnode hsub rt h lo hi hwf with rfl | ⟨h', lo', hi', hwf'⟩
  · exact wf_laxsep_node hwf hlf i y hy x hx
  · exact wf_laxsep_node hwf' hlf i y hy x hx

/-- Sortedness of the whole emitted sequence of a well-formed tree. -/
theorem tree_sorted (tr : BTree) (hwf : TreeWF tr) :
    List.Sorted (· ≤ ·) tr.traverse := by
  obtain ⟨ht, hroot⟩ := hwf
  rcases tr with ⟨root, t⟩
  cases root with
  | none =>
    show List.Sorted (· ≤ ·) []
    simp
  | some r =>
    rcases hroot with hnone | ⟨hh, r', hr', hwfr⟩
    · cases hnone
    · simp only [BTree.root] at hr'
      rcases Option.some_inj.mp hr' with rfl
      show List.Sorted (· ≤ ·) r.traverse
      have := (wf_traverse_props hh true none none r hwfr).1
      exact List.chain'_iff_pairwise.mp this

/-! ## Concrete scenario trees -/

/-- Scenario B of the spec: degree 2, keys 1,2,3,4 (forces a root split). -/
def treeB : BTree := insertAll (BTree.new 2) [1, 2, 3, 4]

/-- Scenario C of the spec: degree 3, keys 10,20,10 (duplicate key). -/
def treeC : BTree := insertAll (BTree.new 3) [10, 20, 10]

/-- Degree 2, keys 1,2,3,2: after the root split the duplicate 2 is routed
into the left child, landing a key equal to the separator inside
`children[0]`. -/
def treeD : BTree := insertAll (BTree.new 2) [1, 2, 3, 2]

theorem treeB_root : treeB.root
    = some (.mk 2 false [2] [.mk 2 true [1] [], .mk 2 true [3, 4] []]) := by
  simp [treeB, insertAll, BTree.new, BTree.insert, BTreeNode.insert_non_full,
    BTreeNode.split_child, splitZ, splitYtrunc, BTreeNode.setChild, leafInsert,
    insFromRight, descendIdx, List.takeWhile_cons]

theorem treeB_traverse : treeB.traverse = [1, 2, 3, 4] := by
  rw [BTree.traverse, treeB_root]
  show (BTreeNode.mk 2 false [2] [.mk 2 true [1] [], .mk 2 true [3, 4] []]).traverse
    = [1, 2, 3, 4]
  rw [traverse_node, traverseGo_cons_cons, traverseGo_nil_cons, traverse_leaf, traverse_leaf]
  rfl

theorem treeC_root : treeC.root = some (.mk 3 true [10, 10, 20] []) := by
  simp [treeC, insertAll, BTree.new, BTree.insert, BTreeNode.insert_non_full,
    leafInsert, insFromRight]

theorem treeC_traverse : treeC.traverse = [10, 10, 20] := by
  rw [BTree.traverse, treeC_root]
  show (BTreeNode.mk 3 true [10, 10, 20] []).traverse = [10, 10, 20]
  rw [traverse_leaf]

theorem treeC_search10 : treeC.search 10 = true := by
  rw [BTree.search, treeC_root]
  show ((BTreeNode.mk 3 true [10, 10, 20] []).search 10).isSome = true
  rw [search_hit 3 true [10, 10, 20] [] 10 (by simp [searchIdx]) (by simp [searchIdx])]
  rfl

theorem treeC_search20 : treeC.search 20 = true := by
  rw [BTree.search, treeC_root]
  show ((BTreeNode.mk 3 true [10, 10, 20] []).search 20).isSome = true
  rw [search_hit 3 true [10, 10, 20] [] 20 (by simp [searchIdx, List.takeWhile_cons])
    (by simp [searchIdx, List.takeWhile_cons])]
  rfl

theorem treeD_root : treeD.root
    = some (.mk 2 false [2] [.mk 2 true [1, 2] [], .mk 2 true [3] []]) := by
  simp [treeD, insertAll, BTree.new, BTree.insert, BTreeNode.insert_non_full,
    BTreeNode.split_child, splitZ, splitYtrunc, BTreeNode.setChild, leafInsert,
    insFromRight, descendIdx, List.takeWhile_cons]

theorem treeB_reachable : Reachable 2 treeB :=
  Reachable.ins _ 4 (Reachable.ins _ 3 (Reachable.ins _ 2 (Reachable.ins _ 1
    Reachable.empty)))

theorem treeC_reachable : Reachable 3 treeC :=
  Reachable.ins _ 10 (Reachable.ins _ 20 (Reachable.ins _ 10 Reachable.empty))

theorem treeD_reachable : Reachable 2 treeD :=
  Reachable.ins _ 2 (Reachable.ins _ 3 (Reachable.ins _ 2 (Reachable.ins _ 1
    Reachable.empty)))

/-! ## Helper equations for the claim statements -/

theorem get?_eq_some_getD (l : List Int) (i : Nat) (h : i < l.length) :
    l.get? i = some (l.getD i 0) := by
  induction l generalizing i with
  | nil => simp at h
  | cons x xs ih =>
    cases i with
    | zero => rfl
    | succ i => simpa using ih i (by simpa using h)

/-! ## The claims -/

/-- C1: for every degree `t ≥ 2` and every sequence of keys inserted into
an initially empty tree, each inserted key is subsequently found by
`search` (duplicates included). -/
theorem C1_insert_search_roundtrip (t : Nat) (ks : List Int) (k : Int)
    (ht : 2 ≤ t) (hk : k ∈ ks) :
    (insertAll (BTree.new t) ks).search k = true := by
  have hwf0 : TreeWF (BTree.new t) := ⟨ht, Or.inl rfl⟩
  have hwf := insertAll_wf ks (BTree.new t) hwf0
  have hmem := insertAll_mem ks (BTree.new t) k hwf0 (Or.inr hk)
  exact tree_search_finds _ k hwf hmem

theorem C1_insert_search_roundtrip_witness :
    (2 ≤ 2 ∧ (5 : Int) ∈ [(5 : Int), 7]) ∧
      (insertAll (BTree.new 2) [5, 7]).search 5 = true :=
  ⟨⟨by decide, by decide⟩,
    C1_insert_search_roundtrip 2 [5, 7] 5 (by decide) (by decide)⟩

/-- C2: for every tree state reachable from an empty tree by inserts
(degree `t ≥ 2`), the sequence emitted by `traverse` is non-decreasing. -/
theorem C2_traverse_sorted (t : Nat) (tr : BTree) (ht : 2 ≤ t)
    (hr : Reachable t tr) : List.Sorted (· ≤ ·) tr.traverse :=
  tree_sorted tr (reach_wf ht hr)

theorem C2_traverse_sorted_witness :
    (2 ≤ 2 ∧ Reachable 2 ((BTree.new 2).insert 1)) ∧
      List.Sorted (· ≤ ·) ((BTree.new 2).insert 1).traverse :=
  ⟨⟨by decide, Reachable.ins _ 1 Reachable.empty⟩,
    C2_traverse_sorted 2 _ (by decide) (Reachable.ins _ 1 Reachable.empty)⟩

/-- C3 (counterexample): the claim as stated is false.  Strict separation
fails on the reachable tree built by inserting 1,2,3,2 with degree 2: the
duplicate 2 is routed into the left child of the root, so `children[0]`
holds a key equal to (not strictly below) the separator `keys[0] = 2`. -/
theorem C3_strict_separation_counterexample :
    ¬ (∀ (t : Nat) (tr : BTree) (r : BTreeNode), 2 ≤ t → Reachable t tr →
        tr.root = some r → StrictSep r) := by
  intro hall
  have h := hall 2 treeD (.mk 2 false [2] [.mk 2 true [1, 2] [], .mk 2 true [3] []])
    (by decide) treeD_reachable treeD_root
  have hmem : (2 : Int) ∈ (BTreeNode.mk 2 true [1, 2] ([] : List BTreeNode)).traverse := by
    rw [traverse_leaf]
    decide
  have h2 := (h _ (Subnode.refl _) rfl 0 (.mk 2 true [1, 2] []) rfl 2 hmem).1 2 rfl
  exact absurd h2 (by omega)

/-- C3 (amended): in every reachable tree (degree `t ≥ 2`), the subtree at
`children[i]` of any internal node holds only keys `≤ keys[i]` and
`≥ keys[i-1]` — the bounds are inclusive rather than strict, because a key
equal to a separator may be routed to either side of it. -/
theorem C3_lax_separation (t : Nat) (tr : BTree) (r : BTreeNode) (ht : 2 ≤ t)
    (hr : Reachable t tr) (hroot : tr.root = some r) : LaxSep r := by
  obtain ⟨ht2, hcase⟩ := reach_wf ht hr
  rcases hcase with hnone | ⟨hh, r', hr', hwfr⟩
  · rw [hroot] at hnone
    cases hnone
  · rw [hroot] at hr'
    rcases Option.some_inj.mp hr' with rfl
    exact wf_laxsep hwfr

theorem C3_lax_separation_witness :
    (2 ≤ 2 ∧ Reachable 2 treeD ∧ treeD.root
        = some (.mk 2 false [2] [.mk 2 true [1, 2] [], .mk 2 true [3] []])) ∧
      LaxSep (.mk 2 false [2] [.mk 2 true [1, 2] [], .mk 2 true [3] []]) :=
  ⟨⟨by decide, treeD_reachable, treeD_root⟩,
    C3_lax_separation 2 treeD _ (by decide) treeD_reachable treeD_root⟩

/-- C4: in every reachable tree (degree `t ≥ 2`), every node holds at most
`2t-1` keys, every non-root node holds at least `t-1` keys (the root may
hold fewer, down to 0 conceptually), and every internal node with `n` keys
has exactly `n+1` (non-null) children. -/
theorem C4_fanout_bounds (t : Nat) (tr : BTree) (r nd : BTreeNode) (ht : 2 ≤ t)
    (hr : Reachable t tr) (hroot : tr.root = some r) (hsub : Subnode nd r) :
    nd.keys.length ≤ 2 * t - 1 ∧ (nd ≠ r → t - 1 ≤ nd.keys.length) ∧
      (nd.is_leaf = false → nd.children.length = nd.keys.length + 1) := by
  obtain ⟨_, hcase⟩ := reach_wf ht hr
  have htt : tr.t = t := reach_t hr
  rcases hcase with hnone | ⟨hh, r', hr', hwfr⟩
  · rw [hroot] at hnone
    cases hnone
  · rw [hroot] at hr'
    rcases Option.some_inj.mp hr' with rfl
    rw [htt] at hwfr
    rcases wf_subnode hsub true hh none none hwfr with rfl | ⟨h', lo', hi', hwf'⟩
    · have hc := wf_counts hwfr
      exact ⟨hc.1, fun hne => absurd rfl hne, hc.2.2.1⟩
    · have hc := wf_counts hwf'
      exact ⟨hc.1, fun _ => hc.2.1 rfl, hc.2.2.1⟩

theorem C4_fanout_bounds_witness :
    (2 ≤ 2 ∧ Reachable 2 treeB ∧ treeB.root
        = some (.mk 2 false [2] [.mk 2 true [1] [], .mk 2 true [3, 4] []]) ∧
      Subnode (.mk 2 true [1] [])
        (.mk 2 false [2] [.mk 2 true [1] [], .mk 2 true [3, 4] []])) ∧
    ((BTreeNode.mk 2 true [1] []).keys.length ≤ 2 * 2 - 1 ∧
      (BTreeNode.mk 2 true [1] [] ≠
          BTreeNode.mk 2 false [2] [.mk 2 true [1] [], .mk 2 true [3, 4] []] →
        2 - 1 ≤ (BTreeNode.mk 2 true [1] []).keys.length) ∧
      ((BTreeNode.mk 2 true [1] []).is_leaf = false →
        (BTreeNode.mk 2 true [1] []).children.length
          = (BTreeNode.mk 2 true [1] []).keys.length + 1)) :=
  ⟨⟨by decide, treeB_reachable, treeB_root,
      Subnode.step _ _ _ (List.mem_cons_self _ _) (Subnode.refl _)⟩,
    C4_fanout_bounds 2 treeB _ _ (by decide) treeB_reachable treeB_root
      (Subnode.step _ _ _ (List.mem_cons_self _ _) (Subnode.refl _))⟩

/-- C5: splitting the full child `y = children[i]` of a node leaves `y`
with exactly its former lowest `t-1` keys, gives the new sibling
`z = children[i+1]` exactly `y`'s former keys at indices `t..2t-2`, places
`y`'s former middle key (index `t-1`) at `keys[i]` of the parent, and
grows the parent's key count by exactly one. -/
theorem C5_split_child_spec (t : Nat) (lf : Bool) (ks : List Int)
    (cs : List BTreeNode) (i : Nat) (y : BTreeNode) (ht : 2 ≤ t)
    (hy : cs.get? i = some y) (hi : i ≤ ks.length)
    (hlen : cs.length = ks.length + 1) (hfull : y.keys.length = 2 * t - 1) :
    (BTreeNode.split_child (.mk t lf ks cs) i).children.get? i
        = some (splitYtrunc t y) ∧
    (splitYtrunc t y).keys = y.keys.take (t - 1) ∧
    (splitYtrunc t y).keys.length = t - 1 ∧
    (BTreeNode.split_child (.mk t lf ks cs) i).children.get? (i + 1)
        = some (splitZ t y) ∧
    (splitZ t y).keys = y.keys.drop t ∧
    (splitZ t y).keys.length = t - 1 ∧
    (BTreeNode.split_child (.mk t lf ks cs) i).keys.get? i = y.keys.get? (t - 1) ∧
    (BTreeNode.split_child (.mk t lf ks cs) i).keys.length = ks.length + 1 := by
  rw [split_child_eq t lf ks cs i y hy]
  simp only [children_mk, keys_mk]
  have hzkeys : (splitZ t y).keys = y.keys.drop t := by
    rw [splitZ, keys_mk]
    exact List.take_of_length_le (by rw [List.length_drop]; omega)
  have hykeys : (splitYtrunc t y).keys = y.keys.take (t - 1) := by
    rw [splitYtrunc, keys_mk]
  refine ⟨?_, hykeys, ?_, ?_, hzkeys, ?_, ?_, ?_⟩
  · rw [get?_insertIdx_lt _ _ _ _ (Nat.lt_succ_self i)]
    exact get?_set_self cs i _ (by omega)
  · rw [hykeys, List.length_take]
    omega
  · apply get?_insertIdx_self
    rw [List.length_set]
    omega
  · rw [hzkeys, List.length_drop]
    omega
  · rw [get?_insertIdx_self _ _ _ hi, get?_eq_some_getD y.keys (t - 1) (by omega)]
  · exact List.length_insertIdx _ _ hi

theorem C5_split_child_spec_witness :
    (2 ≤ 2 ∧ ([BTreeNode.mk 2 true [1, 2, 3] [], BTreeNode.mk 2 true [7] []].get? 0
        = some (BTreeNode.mk 2 true [1, 2, 3] [])) ∧ 0 ≤ [(5 : Int)].length ∧
      [BTreeNode.mk 2 true [1, 2, 3] [], BTreeNode.mk 2 true [7] []].length
        = [(5 : Int)].length + 1 ∧
      (BTreeNode.mk 2 true [1, 2, 3] ([] : List BTreeNode)).keys.length = 2 * 2 - 1) ∧
    ((BTreeNode.split_child (.mk 2 false [5]
        [BTreeNode.mk 2 true [1, 2, 3] [], BTreeNode.mk 2 true [7] []]) 0).children.get? 0
          = some (splitYtrunc 2 (BTreeNode.mk 2 true [1, 2, 3] [])) ∧
      (splitYtrunc 2 (BTreeNode.mk 2 true [1, 2, 3] [])).keys
          = (BTreeNode.mk 2 true [1, 2, 3] ([] : List BTreeNode)).keys.take (2 - 1) ∧
      (splitYtrunc 2 (BTreeNode.mk 2 true [1, 2, 3] [])).keys.length = 2 - 1 ∧
      (BTreeNode.split_child (.mk 2 false [5]
        [BTreeNode.mk 2 true [1, 2, 3] [], BTreeNode.mk 2 true [7] []]) 0).children.get? (0 + 1)
          = some (splitZ 2 (BTreeNode.mk 2 true [1, 2, 3] [])) ∧
      (splitZ 2 (BTreeNode.mk 2 true [1, 2, 3] [])).keys
          = (BTreeNode.mk 2 true [1, 2, 3] ([] : List BTreeNode)).keys.drop 2 ∧
      (splitZ 2 (BTreeNode.mk 2 true [1, 2, 3] [])).keys.length = 2 - 1 ∧
      (BTreeNode.split_child (.mk 2 false [5]
        [BTreeNode.mk 2 true [1, 2, 3] [], BTreeNode.mk 2 true [7] []]) 0).keys.get? 0
          = (BTreeNode.mk 2 true [1, 2, 3] ([] : List BTreeNode)).keys.get? (2 - 1) ∧
      (BTreeNode.split_child (.mk 2 false [5]
        [BTreeNode.mk 2 true [1, 2, 3] [], BTreeNode.mk 2 true [7] []]) 0).keys.length
          = [(5 : Int)].length + 1) :=
  ⟨⟨by decide, rfl, by decide, by decide, by decide⟩,
    C5_split_child_spec 2 false [5] [BTreeNode.mk 2 true [1, 2, 3] [],
      BTreeNode.mk 2 true [7] []] 0 (BTreeNode.mk 2 true [1, 2, 3] [])
      (by decide) rfl (by decide) (by decide) (by decide)⟩

/-- C9: search never mutates the tree: the instrumented search returns the
state unchanged, its result agrees with the pure search, a repeated call
returns the identical result, and the traversal sequence is unchanged
after a search. -/
theorem C9_search_frame (tr : BTree) (k : Int) :
    (tr.searchM k).2 = tr ∧ (tr.searchM k).1 = tr.search k ∧
    ((tr.searchM k).2.searchM k).1 = (tr.searchM k).1 ∧
    (tr.searchM k).2.traverse = tr.traverse := by
  have h := tree_searchM_frame tr k
  have h2 : (tr.searchM k).2 = tr := by rw [h]
  refine ⟨h2, by rw [h], by rw [h2], by rw [h2]⟩

/-- C10: inserting `k` into a reachable tree (degree `t ≥ 2`) changes the
traversal exactly by placing one copy of `k` at its sorted position:
nothing else is added, removed or altered. -/
theorem C10_insert_sorted_position (t : Nat) (tr : BTree) (k : Int) (ht : 2 ≤ t)
    (hr : Reachable t tr) :
    (tr.insert k).traverse = List.orderedInsert (· ≤ ·) k tr.traverse := by
  have hwf := reach_wf ht hr
  have hperm := (tree_insert_ok tr k hwf).2.1
  have hs_new : List.Sorted (· ≤ ·) (tr.insert k).traverse :=
    tree_sorted _ (tree_insert_ok tr k hwf).1
  have hs_old : List.Sorted (· ≤ ·) tr.traverse := tree_sorted tr hwf
  have hs_oi : List.Sorted (· ≤ ·) (List.orderedInsert (· ≤ ·) k tr.traverse) :=
    hs_old.orderedInsert k _
  have hp : List.Perm ((tr.insert k).traverse)
      (List.orderedInsert (· ≤ ·) k tr.traverse) :=
    hperm.trans (List.perm_orderedInsert _ k _).symm
  exact List.eq_of_perm_of_sorted hp hs_new hs_oi

theorem C10_insert_sorted_position_witness :
    (2 ≤ 2 ∧ Reachable 2 (BTree.new 2)) ∧
      ((BTree.new 2).insert 3).traverse
        = List.orderedInsert (· ≤ ·) 3 (BTree.new 2).traverse :=
  ⟨⟨by decide, Reachable.empty⟩,
    C10_insert_sorted_position 2 (BTree.new 2) 3 (by decide) Reachable.empty⟩

/-- C6: height dynamics of a reachable tree (degree `t ≥ 2`): inserting
into an empty tree yields height exactly 1; inserting when the root is not
full leaves the height unchanged; inserting when the root is full
(`n = 2t-1`) increases the height by exactly 1; no insert decreases the
height, and search and traverse (instrumented with their post-state) leave
the tree, hence its height, unchanged. -/
theorem C6_height_transitions (t : Nat) (tr : BTree) (k : Int) (ht : 2 ≤ t)
    (hr : Reachable t tr) :
    (tr.root = none → (tr.insert k).height = 1) ∧
    (∀ r, tr.root = some r → ¬ r.keys.length = 2 * t - 1 →
      (tr.insert k).height = tr.height) ∧
    (∀ r, tr.root = some r → r.keys.length = 2 * t - 1 →
      (tr.insert k).height = tr.height + 1) ∧
    tr.height ≤ (tr.insert k).height ∧
    (tr.searchM k).2.height = tr.height ∧
    tr.traverseM.2.height = tr.height := by
  have hwf := reach_wf ht hr
  have htt : tr.t = t := reach_t hr
  obtain ⟨hwf', hperm, hempty, hnotfull, hfull⟩ := tree_insert_ok tr k hwf
  have hnotfull' : ∀ r, tr.root = some r → ¬ r.keys.length = 2 * t - 1 →
      (tr.insert k).height = tr.height := by
    intro r hr0 hnf
    exact hnotfull r hr0 (by rw [htt]; exact hnf)
  have hfull' : ∀ r, tr.root = some r → r.keys.length = 2 * t - 1 →
      (tr.insert k).height = tr.height + 1 := by
    intro r hr0 hf
    exact hfull r hr0 (by rw [htt]; exact hf)
  refine ⟨hempty, hnotfull', hfull', ?_, ?_, ?_⟩
  · cases hroot : tr.root with
    | none =>
      have h0 : tr.height = 0 := by
        rcases tr with ⟨root, t0⟩
        simp only [BTree.root] at hroot
        subst hroot
        rfl
      omega
    | some r =>
      by_cases hf : r.keys.length = 2 * t - 1
      · rw [hfull' r hroot hf]
        omega
      · rw [hnotfull' r hroot hf]
  · rw [tree_searchM_frame]
  · rw [tree_traverseM_frame]

theorem C6_height_transitions_witness :
    (2 ≤ 2 ∧ Reachable 2 (BTree.new 2)) ∧
      (((BTree.new 2).root = none → ((BTree.new 2).insert 0).height = 1) ∧
      (∀ r, (BTree.new 2).root = some r → ¬ r.keys.length = 2 * 2 - 1 →
        ((BTree.new 2).insert 0).height = (BTree.new 2).height) ∧
      (∀ r, (BTree.new 2).root = some r → r.keys.length = 2 * 2 - 1 →
        ((BTree.new 2).insert 0).height = (BTree.new 2).height + 1) ∧
      (BTree.new 2).height ≤ ((BTree.new 2).insert 0).height ∧
      ((BTree.new 2).searchM 0).2.height = (BTree.new 2).height ∧
      (BTree.new 2).traverseM.2.height = (BTree.new 2).height) :=
  ⟨⟨by decide, Reachable.empty⟩,
    C6_height_transitions 2 (BTree.new 2) 0 (by decide) Reachable.empty⟩

/-- C7: scenario B of the spec: with degree 2, inserting 1,2,3,4 in order
produces a root holding exactly the single key 2, whose left child holds
exactly [1] and right child exactly [3,4], and `traverse` yields
[1,2,3,4]. -/
theorem C7_scenario_b :
    treeB.root = some (.mk 2 false [2] [.mk 2 true [1] [], .mk 2 true [3, 4] []]) ∧
    treeB.traverse = [1, 2, 3, 4] :=
  ⟨treeB_root, treeB_traverse⟩

/-- C8: scenario C of the spec: with degree 3, inserting 10,20,10 in order
retains the duplicate (`traverse` yields [10,10,20], no deduplication) and
both `search 10` and `search 20` return true. -/
theorem C8_scenario_c :
    treeC.traverse = [10, 10, 20] ∧ treeC.search 10 = true ∧ treeC.search 20 = true :=
  ⟨treeC_traverse, treeC_search10, treeC_search20⟩

end BTreeSpec
